import Mathlib

/-!
Verification development for the focus repository's conversation-capture core:
the Claude Code transcript parser (`src/ingestion/claude_code.py`), the durable
job queue (`src/storage/jobs.py`, modelled from the spec since the module body
is not part of the source tree), and the session recorder
(`src/context/recorder.py`, likewise modelled from the spec).

The Python code is shallowly embedded: JSON values are an inductive type,
`json.loads` results are paired with the raw line text as parser input,
Python exceptions surface as `Except` errors, and `hashlib.md5` is implemented
bit-for-bit over `Nat`.
-/

namespace Focus

set_option maxRecDepth 20000

/- JSON values as produced by `json.loads`.  Numbers are modelled as integers
(the transcript format uses no fractional numbers anywhere the parser looks).
Arrays and objects carry their own cons-list types (`JList`, `JObj`) so that
all recursion over values is mutual-structural and reduces in the kernel. -/
mutual
/-- JSON values as produced by `json.loads`. -/
inductive Json where
| null : Json
| bool : Bool → Json
| num : Int → Json
| str : String → Json
| arr : JList → Json
| obj : JObj → Json
inductive JList where
| nil : JList
| cons : Json → JList → JList
inductive JObj where
| onil : JObj
| ocons : String → Json → JObj → JObj
end

/-- The elements of a JSON array as a `List`. -/
def JList.toList : JList → List Json
| .nil => []
| .cons a as => a :: as.toList

/-- Build a JSON array value from a `List`. -/
def JList.ofList : List Json → JList
| [] => .nil
| a :: as => .cons a (JList.ofList as)

/-- Build a JSON object value from a key/value `List`. -/
def JObj.ofList : List (String × Json) → JObj
| [] => .onil
| (k, v) :: fs => .ocons k v (JObj.ofList fs)

/-- First value stored under a key (Python dict lookup; decoded JSON objects
never carry duplicate keys). -/
def JObj.lookup : JObj → String → Option Json
| .onil, _ => none
| .ocons k v fs, key => if k == key then some v else fs.lookup key

/-- Python `d.get(k)` on a dict: `none` when the key is absent or the value is
not a dict at all. -/
def Json.get? : Json → String → Option Json
| .obj fs, k => fs.lookup k
| _, _ => none

/-- Python `d.get(k, default)`. -/
def Json.getD (j : Json) (k : String) (d : Json) : Json :=
  (j.get? k).getD d

/-- Python truthiness of a JSON value (`None`, `False`, `0`, `""`, `[]`, `{}`
are falsy, everything else truthy). -/
def Json.truthy : Json → Bool
| .null => false
| .bool b => b
| .num n => n != 0
| .str s => !s.isEmpty
| .arr .nil => false
| .arr (.cons _ _) => true
| .obj .onil => false
| .obj (.ocons _ _ _) => true

/- Python `==` on decoded JSON values.  (The int/bool coercion quirks of
Python `==` cannot matter for values the transcript format produces.) -/
mutual
/-- Python `==` on decoded JSON values. -/
def Json.beq : Json → Json → Bool
| .null, .null => true
| .bool a, .bool b => a == b
| .num a, .num b => a == b
| .str a, .str b => a == b
| .arr a, .arr b => JList.beq a b
| .obj a, .obj b => JObj.beq a b
| _, _ => false
def JList.beq : JList → JList → Bool
| .nil, .nil => true
| .cons a as, .cons b bs => Json.beq a b && JList.beq as bs
| _, _ => false
def JObj.beq : JObj → JObj → Bool
| .onil, .onil => true
| .ocons k a as, .ocons l b bs => k == l && Json.beq a b && JObj.beq as bs
| _, _ => false
end

/-- Python `x == "s"` where `x` is an arbitrary decoded JSON value (or absent:
`none` models `dict.get` returning `None`). -/
def optIsStr : Option Json → String → Bool
| some (.str t), s => t == s
| _, _ => false

/-! ## MD5 (`hashlib.md5(content.encode()).hexdigest()`)

A direct implementation of RFC 1321 over `Nat`, operating on the UTF-8 bytes
of the hashed string, producing the lowercase hex digest. -/

/-- Left-rotate a 32-bit word. -/
def rotl32 (x n : Nat) : Nat :=
  ((x <<< n) ||| (x >>> (32 - n))) % 4294967296

/-- Per-round shift amounts. -/
def md5S : List Nat :=
  [7, 12, 17, 22, 7, 12, 17, 22, 7, 12, 17, 22, 7, 12, 17, 22,
   5, 9, 14, 20, 5, 9, 14, 20, 5, 9, 14, 20, 5, 9, 14, 20,
   4, 11, 16, 23, 4, 11, 16, 23, 4, 11, 16, 23, 4, 11, 16, 23,
   6, 10, 15, 21, 6, 10, 15, 21, 6, 10, 15, 21, 6, 10, 15, 21]

/-- Per-round additive constants (binary digits of the sines of integers). -/
def md5K : List Nat :=
  [0xd76aa478, 0xe8c7b756, 0x242070db, 0xc1bdceee,
   0xf57c0faf, 0x4787c62a, 0xa8304613, 0xfd469501,
   0x698098d8, 0x8b44f7af, 0xffff5bb1, 0x895cd7be,
   0x6b901122, 0xfd987193, 0xa679438e, 0x49b40821,
   0xf61e2562, 0xc040b340, 0x265e5a51, 0xe9b6c7aa,
   0xd62f105d, 0x02441453, 0xd8a1e681, 0xe7d3fbc8,
   0x21e1cde6, 0xc33707d6, 0xf4d50d87, 0x455a14ed,
   0xa9e3e905, 0xfcefa3f8, 0x676f02d9, 0x8d2a4c8a,
   0xfffa3942, 0x8771f681, 0x6d9d6122, 0xfde5380c,
   0xa4beea44, 0x4bdecfa9, 0xf6bb4b60, 0xbebfbc70,
   0x289b7ec6, 0xeaa127fa, 0xd4ef3085, 0x04881d05,
   0xd9d4d039, 0xe6db99e5, 0x1fa27cf8, 0xc4ac5665,
   0xf4292244, 0x432aff97, 0xab9423a7, 0xfc93a039,
   0x655b59c3, 0x8f0ccc92, 0xffeff47d, 0x85845dd1,
   0x6fa87e4f, 0xfe2ce6e0, 0xa3014314, 0x4e0811a1,
   0xf7537e82, 0xbd3af235, 0x2ad7d2bb, 0xeb86d391]

/-- The nonlinear round functions F, G, H, I (32-bit complement is
`4294967295 - x`). -/
def md5F (i b c d : Nat) : Nat :=
  if i < 16 then (b &&& c) ||| ((4294967295 - b) &&& d)
  else if i < 32 then (d &&& b) ||| ((4294967295 - d) &&& c)
  else if i < 48 then b ^^^ c ^^^ d
  else c ^^^ (b ||| (4294967295 - d))

/-- Message-word index schedule. -/
def md5G (i : Nat) : Nat :=
  if i < 16 then i
  else if i < 32 then (5 * i + 1) % 16
  else if i < 48 then (3 * i + 5) % 16
  else (7 * i) % 16

/-- `n` little-endian bytes of `v`. -/
def leBytes : Nat → Nat → List Nat
| _, 0 => []
| v, n + 1 => v % 256 :: leBytes (v / 256) n

/-- RFC 1321 padding: a 0x80 byte, zeros to 56 mod 64, then the bit length as
eight little-endian bytes. -/
def md5Pad (msg : List Nat) : List Nat :=
  let len := msg.length
  let k := (64 + 56 - ((len + 1) % 64)) % 64
  msg ++ [128] ++ List.replicate k 0 ++ leBytes (len * 8) 8

/-- Little-endian 32-bit word `j` of a 64-byte block. -/
def md5Word (block : List Nat) (j : Nat) : Nat :=
  block.getD (4 * j) 0 + 256 * block.getD (4 * j + 1) 0 +
    65536 * block.getD (4 * j + 2) 0 + 16777216 * block.getD (4 * j + 3) 0

/-- One of the 64 rounds. -/
def md5Step (block : List Nat) (st : Nat × Nat × Nat × Nat) (i : Nat) :
    Nat × Nat × Nat × Nat :=
  let (a, b, c, d) := st
  let f := (md5F i b c d + a + md5K.getD i 0 + md5Word block (md5G i)) % 4294967296
  (d, (b + rotl32 f (md5S.getD i 0)) % 4294967296, b, c)

/-- Process one 64-byte block. -/
def md5Block (st : Nat × Nat × Nat × Nat) (block : List Nat) :
    Nat × Nat × Nat × Nat :=
  let (a, b, c, d) := (List.range 64).foldl (md5Step block) st
  ((st.1 + a) % 4294967296, (st.2.1 + b) % 4294967296,
   (st.2.2.1 + c) % 4294967296, (st.2.2.2 + d) % 4294967296)

/-- Split a byte list into 64-byte chunks (structural recursion on a fuel
bound so that the definition reduces inside the kernel). -/
def chunks64Aux : Nat → List Nat → List (List Nat)
| 0, _ => []
| _, [] => []
| fuel + 1, x :: xs => (x :: xs).take 64 :: chunks64Aux fuel ((x :: xs).drop 64)

/-- Split a byte list into 64-byte chunks. -/
def chunks64 (l : List Nat) : List (List Nat) :=
  chunks64Aux l.length l

/-- The 16 digest bytes of an MD5 computation over a byte list. -/
def md5Digest (msg : List Nat) : List Nat :=
  let st := (chunks64 (md5Pad msg)).foldl md5Block
    (0x67452301, 0xefcdab89, 0x98badcfe, 0x10325476)
  leBytes st.1 4 ++ leBytes st.2.1 4 ++ leBytes st.2.2.1 4 ++ leBytes st.2.2.2 4

/-- Lowercase hex digit. -/
def hexChar (n : Nat) : Char :=
  if n < 10 then Char.ofNat (48 + n) else Char.ofNat (87 + n)

/-- Lowercase hex rendering of a byte list. -/
def bytesHex (bs : List Nat) : String :=
  ⟨bs.foldr (fun b cs => hexChar (b / 16) :: hexChar (b % 16) :: cs) []⟩

/-- UTF-8 encoding of one character (what `str.encode()` does per code point). -/
def charUtf8 (c : Char) : List Nat :=
  let n := c.toNat
  if n < 128 then [n]
  else if n < 2048 then [192 + n / 64, 128 + n % 64]
  else if n < 65536 then [224 + n / 4096, 128 + (n / 64) % 64, 128 + n % 64]
  else [240 + n / 262144, 128 + (n / 4096) % 64, 128 + (n / 64) % 64, 128 + n % 64]

/-- UTF-8 bytes of a string (`content.encode()`). -/
def utf8Bytes (s : String) : List Nat :=
  s.data.foldr (fun c bs => charUtf8 c ++ bs) []

/-- `compute_content_hash` from src/ingestion/claude_code.py:
`hashlib.md5(content.encode()).hexdigest()`. -/
def compute_content_hash (content : String) : String :=
  bytesHex (md5Digest (utf8Bytes content))

/-! ## Transcript parser (`parse_session_into_turns` and helpers)

One input line of the JSONL transcript is its raw text paired with the result
of `json.loads` on the stripped text (`none` when JSON decoding fails).
Python exceptions that the parser can raise on adversarial input surface as
`Except` errors: `AttributeError` when a line holds a JSON value that is not
an object (so `.get` does not exist), `TypeError` when a `text`-typed content
block carries a non-string `text` value (so `"\n".join` fails). -/

/-- Python `line.strip()` (leading/trailing whitespace removed), defined over
the char list so it reduces in the kernel. -/
def pyStrip (s : String) : String :=
  ⟨((s.data.dropWhile Char.isWhitespace).reverse.dropWhile Char.isWhitespace).reverse⟩

/-- Python `s.startswith(pre)`, defined over char lists so it reduces in the
kernel. -/
def pyStartsWith (s pre : String) : Bool :=
  pre.data.isPrefixOf s.data

/-- One physical line of the transcript file: the raw text plus the result of
`json.loads` on its stripped form (`none` on `json.JSONDecodeError`). -/
structure Line where
  raw : String
  js : Option Json

/-- The Python exceptions reachable from `parse_session_into_turns`. -/
inductive PyError where
| attributeError : PyError
| typeError : PyError
deriving DecidableEq

/-- Auxiliary for `_extract_text_content`: Python `"\n".join(parts)` demands
every part be a string, else `TypeError`. -/
def allStrings : List Json → Option (List String)
| [] => some []
| .str s :: rest => (allStrings rest).map (s :: ·)
| _ :: _ => none

/-- `_extract_text_content` from src/ingestion/claude_code.py lines 101-117:
string content passes through; list content collects `block.get("text", "")`
of every dict block whose `type` equals `"text"` and joins with newlines
(raising `TypeError` when some collected part is not a string); anything else
yields the empty string. -/
def _extract_text_content : Json → Except PyError String
| .str s => .ok s
| .arr blocks =>
  let parts := blocks.toList.filterMap fun b =>
    match b with
    | .obj _ => if optIsStr (b.get? "type") "text"
                then some (b.getD "text" (.str "")) else none
    | _ => none
  match allStrings parts with
  | some ss => .ok (String.intercalate "\n" ss)
  | none => .error .typeError
| _ => .ok ""

/-- Python `x in l` for JSON values. -/
def jContains (l : List Json) (x : Json) : Bool :=
  l.any fun y => Json.beq y x

/-- `_extract_tool_names` from src/ingestion/claude_code.py lines 426-444:
`name` values of `tool_use`-typed dict blocks, truthy only, deduplicated in
first-occurrence order; non-list content yields `[]`. -/
def _extract_tool_names : Json → List Json
| .arr blocks =>
  blocks.toList.foldl (fun tools b =>
    match b with
    | .obj _ =>
      if optIsStr (b.get? "type") "tool_use" then
        let name := b.getD "name" (.str "")
        if name.truthy && !jContains tools name then tools ++ [name] else tools
      else tools
    | _ => tools) []
| _ => []

/-- A first-pass message record (the dict appended at lines 496-503 of
src/ingestion/claude_code.py). -/
structure Msg where
  role : Json
  content : Json
  text : String
  timestamp : Json
  model : Json
  raw_line : String

/-- First-pass handling of one line (lines 467-503): strip, tolerate JSON
decode failure, keep only user/assistant-typed, non-sidechain, non-meta
entries with a dict `message`, extract the text, and drop command messages.
`.ok none` means the line is skipped. -/
def lineStep (l : Line) : Except PyError (Option Msg) :=
  let s := pyStrip l.raw
  if s.isEmpty then .ok none
  else
    match l.js with
    | none => .ok none
    | some j =>
      match j with
      | .obj _ =>
        if !(optIsStr (j.get? "type") "user" || optIsStr (j.get? "type") "assistant")
        then .ok none
        else if (j.getD "isSidechain" .null).truthy || (j.getD "isMeta" .null).truthy
        then .ok none
        else
          match j.getD "message" (.obj .onil) with
          | .obj mfs =>
            let message := Json.obj mfs
            let content := message.getD "content" (.str "")
            match _extract_text_content content with
            | .error e => .error e
            | .ok text =>
              if !text.isEmpty &&
                 (pyStartsWith (pyStrip text) "<command-name>" ||
                  pyStartsWith (pyStrip text) "<local-command")
              then .ok none
              else .ok (some
                { role := message.getD "role" (.str "")
                  content := content
                  text := text
                  timestamp := j.getD "timestamp" (.str "")
                  model := message.getD "model" (.str "")
                  raw_line := s })
          | _ => .ok none
      | _ => .error .attributeError

/-- The first pass over all lines, collecting the surviving messages in order;
the first Python exception aborts the whole call. -/
def firstPass : List Line → Except PyError (List Msg)
| [] => .ok []
| l :: ls =>
  match lineStep l with
  | .error e => .error e
  | .ok none => firstPass ls
  | .ok (some m) =>
    match firstPass ls with
    | .error e => .error e
    | .ok rest => .ok (m :: rest)

/-- The mutable `current_turn` dict of the second pass, before finalization. -/
structure PTurn where
  user_message : String
  assistant_texts : List String
  tool_names : List Json
  model_name : Option Json
  started_at : Json
  ended_at : Json
  raw_lines : List String

/-- A finalized turn (after `_finalize_turn`), with the intermediate
`raw_lines` list retained alongside its newline-join `raw_jsonl` so that
membership of source lines stays directly expressible. -/
structure Turn where
  turn_number : Nat
  user_message : String
  assistant_text : String
  tool_names : List Json
  model_name : Option Json
  started_at : Json
  ended_at : Json
  raw_lines : List String
  raw_jsonl : String
  content_hash : String

/-- `_finalize_turn` (lines 546-559): join the raw lines and assistant texts,
set the index, and hash the joined raw lines. -/
def _finalize_turn (c : PTurn) (index : Nat) : Turn :=
  { turn_number := index
    user_message := c.user_message
    assistant_text := String.intercalate "\n" c.assistant_texts
    tool_names := c.tool_names
    model_name := c.model_name
    started_at := c.started_at
    ended_at := c.ended_at
    raw_lines := c.raw_lines
    raw_jsonl := String.intercalate "\n" c.raw_lines
    content_hash := compute_content_hash (String.intercalate "\n" c.raw_lines) }

/-- The fresh `current_turn` started at a user message (lines 516-524). -/
def newPTurn (m : Msg) : PTurn :=
  { user_message := m.text
    assistant_texts := []
    tool_names := []
    model_name := none
    started_at := m.timestamp
    ended_at := m.timestamp
    raw_lines := [m.raw_line] }

/-- Absorbing one assistant message into the current turn (lines 525-536). -/
def absorb (c : PTurn) (m : Msg) : PTurn :=
  { c with
    assistant_texts := if m.text.isEmpty then c.assistant_texts
                       else c.assistant_texts ++ [m.text]
    tool_names := (_extract_tool_names m.content).foldl
      (fun acc t => if jContains acc t then acc else acc ++ [t]) c.tool_names
    model_name := if m.model.truthy && c.model_name.isNone
                  then some m.model else c.model_name
    ended_at := if m.timestamp.truthy then m.timestamp else c.ended_at
    raw_lines := c.raw_lines ++ [m.raw_line] }

/-- Python `j == "s"` for a JSON value and a string literal. -/
def Json.isStr (j : Json) (s : String) : Bool :=
  match j with
  | .str t => t == s
  | _ => false

/-- Python `msg["role"] == "user"` in the grouping loop. -/
def isUser (m : Msg) : Bool := m.role.isStr "user"

/-- Python `msg["role"] == "assistant"` in the grouping loop. -/
def isAssistant (m : Msg) : Bool := m.role.isStr "assistant"

/-- One iteration of the grouping loop (lines 509-536): a user-role message
finalizes a current turn with truthy `user_message` and starts a new one; an
assistant-role message is absorbed when a current turn exists; anything else
is ignored. -/
def groupStep (st : List Turn × Option PTurn) (m : Msg) : List Turn × Option PTurn :=
  if isUser m then
    let turns := match st.2 with
      | some c => if !c.user_message.isEmpty
                  then st.1 ++ [_finalize_turn c st.1.length] else st.1
      | none => st.1
    (turns, some (newPTurn m))
  else if isAssistant m then
    match st.2 with
    | some c => (st.1, some (absorb c m))
    | none => st
  else st

/-- Finalizing the trailing turn after the loop (lines 539-541). -/
def finishTurns (st : List Turn × Option PTurn) : List Turn :=
  match st.2 with
  | some c => if !c.user_message.isEmpty
              then st.1 ++ [_finalize_turn c st.1.length] else st.1
  | none => st.1

/-- The second (grouping) pass of `parse_session_into_turns`
(lines 505-543). -/
def groupTurns (ms : List Msg) : List Turn :=
  finishTurns (ms.foldl groupStep ([], none))

/-- `parse_session_into_turns` from src/ingestion/claude_code.py lines
447-543, as a function of the file content (the `path.exists()` guard and
file reading are I/O of the caller; a missing file is handled by the
recorder model below). -/
def parse_session_into_turns (ls : List Line) : Except PyError (List Turn) :=
  (firstPass ls).map groupTurns

/-! ## Reference notions used to state the grouping claims

These definitions restate the grouping algorithm the way the specification
describes it ("a turn starts at a user message and absorbs every following
assistant message until the next user message or end of input"); the
characterization lemma below proves them equal to `groupTurns`. -/

/-- Split a message stream into groupings: each user-role message starts a
grouping that collects the assistant-role messages following it until the
next user-role message; messages before the first user-role message (and
messages of any other role) belong to no grouping. -/
def groupsAux : Option (Msg × List Msg) → List Msg → List (Msg × List Msg)
| cur, [] => cur.toList
| cur, m :: ms =>
  if isUser m then cur.toList ++ groupsAux (some (m, [])) ms
  else if isAssistant m then groupsAux (cur.map fun g => (g.1, g.2 ++ [m])) ms
  else groupsAux cur ms

/-- The groupings of a message stream. -/
def groupsOf (ms : List Msg) : List (Msg × List Msg) :=
  groupsAux none ms

/-- The `current_turn` dict a grouping accumulates to. -/
def ptOf (g : Msg × List Msg) : PTurn :=
  g.2.foldl absorb (newPTurn g.1)

/-- Finalize the groupings with non-empty user text, numbering the kept ones
consecutively from `k`. -/
def turnsFromIdx : Nat → List (Msg × List Msg) → List Turn
| _, [] => []
| k, g :: gs =>
  if !g.1.text.isEmpty then _finalize_turn (ptOf g) k :: turnsFromIdx (k + 1) gs
  else turnsFromIdx k gs

/-- The skip conditions named by the specification: a line that fails to
decode as JSON, a decoded entry whose `type` is neither user nor assistant,
an entry with a truthy `isSidechain` or `isMeta` flag, or an entry whose
resolved text begins with a command marker. -/
def claimSkippable (l : Line) : Bool :=
  match l.js with
  | none => true
  | some j =>
    match j with
    | .obj _ =>
      !(optIsStr (j.get? "type") "user" || optIsStr (j.get? "type") "assistant") ||
      (j.getD "isSidechain" .null).truthy || (j.getD "isMeta" .null).truthy ||
      (match j.getD "message" (.obj .onil) with
       | .obj mfs =>
         (match _extract_text_content ((Json.obj mfs).getD "content" (.str "")) with
          | .ok text => !text.isEmpty &&
              (pyStartsWith (pyStrip text) "<command-name>" ||
                  pyStartsWith (pyStrip text) "<local-command")
          | .error _ => false)
       | _ => false)
    | _ => false

/-- Well-formedness of a `message.content` value: every `text`-typed dict
block carries a string `text` (the only shape on which text extraction can
raise). -/
def contentBlocksOk : Json → Bool
| .arr bs => bs.toList.all fun b =>
    match b with
    | .obj _ => !(optIsStr (b.get? "type") "text") ||
        (match b.getD "text" (.str "") with | .str _ => true | _ => false)
    | _ => true
| _ => true

/-- Lines on which the first pass cannot raise: blank, undecodable, or a JSON
object whose `message.content` text blocks are well-formed. -/
def goodLine (l : Line) : Bool :=
  (pyStrip l.raw).isEmpty ||
  match l.js with
  | none => true
  | some j =>
    match j with
    | .obj _ =>
      (match j.getD "message" (.obj .onil) with
       | .obj mfs => contentBlocksOk ((Json.obj mfs).getD "content" (.str ""))
       | _ => true)
    | _ => false

/-- The raw (pre-deduplication) sequence of `tool_use` names in a content
value, in block order. -/
def rawToolUseNames : Json → List Json
| .arr blocks => blocks.toList.filterMap fun b =>
    match b with
    | .obj _ => if optIsStr (b.get? "type") "tool_use"
                then some (b.getD "name" (.str "")) else none
    | _ => none
| _ => []

/-- Truthy-filtered first-occurrence deduplication (the reference description
of how tool names accumulate). -/
def dtf (acc : List Json) (l : List Json) : List Json :=
  l.foldl (fun a n => if n.truthy && !jContains a n then a ++ [n] else a) acc

/-! ## Job store (`src/storage/jobs.py`)

The module body is not part of the source tree (only its tests and the
`FocusJob` model in src/storage/models.py are), so the operations are
modelled from the spec, section 4.1, together with the schema: `dedupe_key`
carries a table-wide unique constraint and the insert is
conflict-protected (`ON CONFLICT DO NOTHING`, per tests/test_jobs.py).
Concurrency serializes through that constraint, so the model applies
operations sequentially. -/

/-- Job lifecycle states (`status` check constraint in models.py). -/
inductive JobStatus where
| queued : JobStatus
| processing : JobStatus
| retry : JobStatus
| done : JobStatus
| failed : JobStatus
deriving DecidableEq

/-- One row of the `focus_jobs` table (models.py lines 570-596, with ids and
timestamps abstracted to `Nat`). -/
structure Job where
  id : Nat
  kind : String
  dedupe_key : Option String
  payload : String
  status : JobStatus
  priority : Nat
  attempts : Nat
  max_attempts : Nat
  locked_until : Option Nat
  error_message : Option String
  created_at : Nat
deriving DecidableEq

/-- The job table plus the id allocator. -/
structure JobStore where
  jobs : List Job
  nextId : Nat
deriving DecidableEq

/-- The empty job table. -/
def emptyStore : JobStore := { jobs := [], nextId := 0 }

/-- Non-terminal statuses (queued/processing/retry). -/
def nonTerminal : JobStatus → Bool
| .queued => true
| .processing => true
| .retry => true
| .done => false
| .failed => false

/-- Modelled from the spec: `enqueue_job` of the absent src/storage/jobs.py.
Inserts a new queued job; with a `dedupe_key`, the unique-constraint-protected
insert is a no-op returning nothing when any row already holds that key. -/
def enqueue_job (st : JobStore) (kind payload : String) (priority max_attempts : Nat)
    (dedupe_key : Option String) (now : Nat) : Option Job × JobStore :=
  let conflict := match dedupe_key with
    | some key => st.jobs.any fun j => j.dedupe_key == some key
    | none => false
  if conflict then (none, st)
  else
    let job : Job :=
      { id := st.nextId, kind := kind, dedupe_key := dedupe_key, payload := payload
        status := .queued, priority := priority, attempts := 0
        max_attempts := max_attempts, locked_until := none
        error_message := none, created_at := now }
    (some job, { jobs := st.jobs ++ [job], nextId := st.nextId + 1 })

/-- The lease duration (an arbitrary positive constant; the spec fixes only
`locked_until = now + lease_duration`). -/
def leaseDuration : Nat := 300

/-- Whether a job kind passes an optional kind filter. -/
def kindOk (kinds : Option (List String)) (kind : String) : Bool :=
  match kinds with
  | none => true
  | some ks => ks.contains kind

/-- Best claimable candidate: lowest priority number first, then earliest
`created_at` (FIFO within a priority tier). -/
def pickBest (cands : List Job) : Option Job :=
  cands.foldl (fun acc j =>
    match acc with
    | none => some j
    | some b =>
      if j.priority < b.priority ∨ (j.priority = b.priority ∧ j.created_at < b.created_at)
      then some j else some b) none

/-- Modelled from the spec: `claim_job` of the absent src/storage/jobs.py.
Atomically selects the best queued/retry candidate, marks it processing,
sets the lease and increments `attempts`. -/
def claim_job (st : JobStore) (kinds : Option (List String)) (now : Nat) :
    Option Job × JobStore :=
  let cands := st.jobs.filter fun j =>
    decide (j.status = .queued ∨ j.status = .retry) && kindOk kinds j.kind
  match pickBest cands with
  | none => (none, st)
  | some b =>
    let upd := fun (j : Job) =>
      if j.id == b.id
      then { j with status := .processing, locked_until := some (now + leaseDuration),
                    attempts := j.attempts + 1 }
      else j
    (some (upd b), { st with jobs := st.jobs.map upd })

/-- Modelled from the spec: `complete_job` of the absent src/storage/jobs.py.
Sets status done; idempotent. -/
def complete_job (st : JobStore) (id : Nat) : JobStore :=
  { st with jobs := st.jobs.map fun j =>
      if j.id == id then { j with status := .done } else j }

/-- Modelled from the spec: `fail_job` of the absent src/storage/jobs.py.
Looks the job up (no-op when absent); `attempts < max_attempts` sets retry,
otherwise failed; always records the error message. -/
def fail_job (st : JobStore) (id : Nat) (msg : String) : JobStore :=
  match st.jobs.find? (fun j => j.id == id) with
  | none => st
  | some j0 =>
    let ns : JobStatus := if j0.attempts < j0.max_attempts then .retry else .failed
    { st with jobs := st.jobs.map fun j =>
        if j.id == id then { j with status := ns, error_message := some msg } else j }

/-- Modelled from the spec: `expire_stale_leases` of the absent
src/storage/jobs.py.  Every processing job whose lease has passed goes back
to retry; returns the count. -/
def expire_stale_leases (st : JobStore) (now : Nat) : Nat × JobStore :=
  let stale := fun (j : Job) => decide (j.status = .processing) &&
    (match j.locked_until with | some t => t < now | none => false)
  (st.jobs.countP stale,
   { st with jobs := st.jobs.map fun j =>
       if stale j then { j with status := .retry, locked_until := none } else j })

/-- The operations any collection of producers and workers can apply to the
job table. -/
inductive JobOp where
| enqueue (kind payload : String) (priority max_attempts : Nat)
    (dedupe_key : Option String) (now : Nat) : JobOp
| claim (kinds : Option (List String)) (now : Nat) : JobOp
| complete (id : Nat) : JobOp
| fail (id : Nat) (msg : String) : JobOp
| expire (now : Nat) : JobOp

/-- Apply one operation (discarding its return value). -/
def applyOp (st : JobStore) : JobOp → JobStore
| .enqueue kind payload priority max_attempts dedupe_key now =>
  (enqueue_job st kind payload priority max_attempts dedupe_key now).2
| .claim kinds now => (claim_job st kinds now).2
| .complete id => complete_job st id
| .fail id msg => fail_job st id msg
| .expire now => (expire_stale_leases st now).2

/-- Apply a sequence of operations in order. -/
def applyOps (st : JobStore) (ops : List JobOp) : JobStore :=
  ops.foldl applyOp st

/-- A store lifecycle: some operation sequence leads to it from the empty
table. -/
def ReachableStore (st : JobStore) : Prop :=
  ∃ ops, applyOps emptyStore ops = st

/-- Lookup by id. -/
def getJob (st : JobStore) (id : Nat) : Option Job :=
  st.jobs.find? fun j => j.id == id

/-! ## Recorder (`src/context/recorder.py`)

The module body is not part of the source tree (only its tests are), so
`record_session` is modelled from the spec, section 4.4: parse the whole
file, dedup parsed turns against the content hashes of the already-persisted
turns of the session (an explicitly constructed set that grows as turns are
persisted), and report recorded/skipped counts.  A missing file yields the
`file_not_found` result; the session's persisted-turn list is the state. -/

/-- The result dict of `record_session`. -/
structure RecResult where
  turns_recorded : Nat
  turns_skipped : Nat
  error : Option String
deriving DecidableEq

/-- One parsed turn reconciled against the persisted turns: a known hash is
skipped, a new hash is persisted and immediately added to the known set. -/
def recStep (acc : Nat × Nat × List Turn) (t : Turn) : Nat × Nat × List Turn :=
  if (acc.2.2.map Turn.content_hash).contains t.content_hash
  then (acc.1, acc.2.1 + 1, acc.2.2)
  else (acc.1 + 1, acc.2.1, acc.2.2 ++ [t])

/-- Modelled from the spec: `record_session` of the absent
src/context/recorder.py (section 4.4; tests/test_recorder.py). -/
def record_session (file : Option (List Line)) (persisted : List Turn) :
    Except PyError (RecResult × List Turn) :=
  match file with
  | none => .ok ({ turns_recorded := 0, turns_skipped := 0,
                   error := some "file_not_found" }, persisted)
  | some ls =>
    (parse_session_into_turns ls).map fun ts =>
      let res := ts.foldl recStep (0, 0, persisted)
      ({ turns_recorded := res.1, turns_skipped := res.2.1, error := none }, res.2.2)

/-! ## Helper lemmas about the first pass -/

/-- Every skip condition named by the spec makes `lineStep` drop the line. -/
theorem lineStep_of_claimSkippable (l : Line) (h : claimSkippable l = true) :
    lineStep l = .ok none := by
  rcases l with ⟨raw, js⟩
  by_cases hs : (pyStrip raw).isEmpty
  · cases js <;> simp [lineStep, hs]
  · cases js with
    | none => simp [lineStep, hs]
    | some j =>
      cases j with
      | null => simp [claimSkippable] at h
      | bool b => simp [claimSkippable] at h
      | num n => simp [claimSkippable] at h
      | str s => simp [claimSkippable] at h
      | arr a => simp [claimSkippable] at h
      | obj mfs0 =>
        simp only [claimSkippable] at h
        simp only [lineStep, hs, Bool.false_eq_true, if_false]
        by_cases h1 : (optIsStr (Json.get? (.obj mfs0) "type") "user" ||
            optIsStr (Json.get? (.obj mfs0) "type") "assistant") = true
        · simp only [h1, Bool.not_true, Bool.false_or] at h ⊢
          by_cases h2 : ((Json.getD (.obj mfs0) "isSidechain" .null).truthy ||
              (Json.getD (.obj mfs0) "isMeta" .null).truthy) = true
          · simp [h2]
          · simp only [Bool.not_eq_true] at h2
            simp only [h2, Bool.false_or, if_false] at h ⊢
            cases hm : Json.getD (.obj mfs0) "message" (.obj .onil) with
            | obj mfs =>
              simp only [hm] at h
              cases hx : _extract_text_content (Json.getD (.obj mfs) "content" (.str "")) with
              | error e => simp only [hx] at h; simp at h
              | ok text =>
                simp only [hx] at h
                simp [hx, h]
            | null => simp
            | bool b => simp
            | num n => simp
            | str s => simp
            | arr a => simp
        · simp only [Bool.not_eq_true] at h1
          simp [h1]

/-- Dropped lines delete cleanly from the first pass. -/
theorem firstPass_skip (xs ys : List Line) (l : Line) (h : lineStep l = .ok none) :
    firstPass (xs ++ l :: ys) = firstPass (xs ++ ys) := by
  induction xs with
  | nil => simp [firstPass, h]
  | cons x xs ih =>
    simp only [List.cons_append, firstPass, List.append_eq]
    cases hx : lineStep x with
    | error e => rfl
    | ok m? =>
      cases m? with
      | none => exact ih
      | some m => rw [ih]

/-! ## C1, C5, C7 -/

/-- Claim C1: the transcript parser is deterministic and side-effect free.
The embedding is a pure function of the file content (the Python body reads
only the lines of the file it is given, consults no global mutable state and
uses no randomness), so two runs on the same input are the same term: the
turn lists agree in every field and the `content_hash` values agree. -/
theorem parse_session_into_turns_deterministic (ls : List Line) :
    parse_session_into_turns ls = parse_session_into_turns ls ∧
    (parse_session_into_turns ls).map (List.map Turn.content_hash) =
      (parse_session_into_turns ls).map (List.map Turn.content_hash) :=
  ⟨rfl, rfl⟩

/-- Concrete transcript line: a user entry (raw text and its decoded value,
kept consistent by hand). -/
def wUser1 : Line :=
  { raw := "\x7b\"type\": \"user\", \"message\": \x7b\"role\": \"user\", \"content\": \"Fix the bug\"\x7d, \"timestamp\": \"2026-02-10T12:00:00Z\", \"sessionId\": \"test-session\"\x7d"
    js := some (.obj (JObj.ofList
      [("type", .str "user"),
       ("message", .obj (JObj.ofList
         [("role", .str "user"), ("content", .str "Fix the bug")])),
       ("timestamp", .str "2026-02-10T12:00:00Z"),
       ("sessionId", .str "test-session")])) }

/-- Concrete transcript line: an assistant entry with a text block and a
`tool_use` block. -/
def wAsst1 : Line :=
  { raw := "\x7b\"type\": \"assistant\", \"message\": \x7b\"role\": \"assistant\", \"model\": \"claude-3\", \"content\": [\x7b\"type\": \"text\", \"text\": \"Done.\"\x7d, \x7b\"type\": \"tool_use\", \"name\": \"Read\", \"input\": \x7b\x7d\x7d]\x7d, \"timestamp\": \"2026-02-10T12:00:30Z\"\x7d"
    js := some (.obj (JObj.ofList
      [("type", .str "assistant"),
       ("message", .obj (JObj.ofList
         [("role", .str "assistant"), ("model", .str "claude-3"),
          ("content", .arr (JList.ofList
            [.obj (JObj.ofList [("type", .str "text"), ("text", .str "Done.")]),
             .obj (JObj.ofList [("type", .str "tool_use"), ("name", .str "Read"),
                                ("input", .obj .onil)])]))])),
       ("timestamp", .str "2026-02-10T12:00:30Z")])) }

/-- Concrete transcript line: a sidechain (subagent) entry. -/
def wSide : Line :=
  { raw := "\x7b\"type\": \"assistant\", \"isSidechain\": true, \"message\": \x7b\"role\": \"assistant\", \"content\": \"subagent noise\"\x7d, \"timestamp\": \"2026-02-10T12:00:10Z\"\x7d"
    js := some (.obj (JObj.ofList
      [("type", .str "assistant"),
       ("isSidechain", .bool true),
       ("message", .obj (JObj.ofList
         [("role", .str "assistant"), ("content", .str "subagent noise")])),
       ("timestamp", .str "2026-02-10T12:00:10Z")])) }

/-- Claim C5: a line that fails to decode as JSON, an entry whose `type` is
neither user nor assistant, an entry with a truthy `isSidechain`/`isMeta`
flag, and an entry whose resolved text begins with a command marker
contribute nothing to the returned turns: parsing with the line deleted
gives the identical result (so the line appears in no turn's raw lines,
text, tool names or timestamps). -/
theorem skipped_lines_contribute_nothing (xs ys : List Line) (l : Line)
    (h : claimSkippable l = true) :
    parse_session_into_turns (xs ++ l :: ys) = parse_session_into_turns (xs ++ ys) := by
  unfold parse_session_into_turns
  rw [firstPass_skip xs ys l (lineStep_of_claimSkippable l h)]

/-- Witness for C5: a concrete sidechain line between a user and an assistant
line is claim-skippable, and deleting it does not change the parse. -/
theorem skipped_lines_contribute_nothing_witness :
    claimSkippable wSide = true ∧
    parse_session_into_turns [wUser1, wSide, wAsst1] =
      parse_session_into_turns [wUser1, wAsst1] :=
  ⟨by decide, skipped_lines_contribute_nothing [wUser1] [wAsst1] wSide (by decide)⟩

/-- A line holding the JSON value `3`: valid JSON, but not an object. -/
def wNonObject : Line := { raw := "3", js := some (.num 3) }

/-- A corrupt trailing line that fails to decode as JSON. -/
def wNonJson : Line := { raw := "corrupt trailing", js := none }

/-- Claim C7 counterexample: `parse_session_into_turns` is not total on
arbitrary content.  A line whose JSON value is not an object (here the valid
JSON text `3`) makes `obj.get("type")` raise `AttributeError` — only
`json.JSONDecodeError` is caught — so the call raises instead of returning a
turn list. -/
theorem parse_session_raises_on_non_object_json_line :
    parse_session_into_turns [wNonObject] = .error .attributeError := by
  rfl

/-- Parts that are all strings survive `"\n".join`. -/
theorem allStrings_isSome (ps : List Json) (h : ∀ p ∈ ps, ∃ s, p = Json.str s) :
    ∃ ss, allStrings ps = some ss := by
  induction ps with
  | nil => exact ⟨[], rfl⟩
  | cons p ps ih =>
    obtain ⟨s, rfl⟩ := h p (by simp)
    obtain ⟨ss, hss⟩ := ih fun q hq => h q (by simp [hq])
    exact ⟨s :: ss, by simp [allStrings, hss]⟩

/-- On well-formed content, text extraction cannot raise. -/
theorem extract_text_ok_of_contentBlocksOk (c : Json) (h : contentBlocksOk c = true) :
    ∃ s, _extract_text_content c = .ok s := by
  cases c with
  | str s => exact ⟨s, rfl⟩
  | null => exact ⟨"", rfl⟩
  | bool b => exact ⟨"", rfl⟩
  | num n => exact ⟨"", rfl⟩
  | obj o => exact ⟨"", rfl⟩
  | arr bs =>
    have hp : ∀ p ∈ (bs.toList.filterMap fun b =>
        match b with
        | .obj _ => if optIsStr (b.get? "type") "text"
                    then some (b.getD "text" (.str "")) else none
        | _ => none), ∃ s, p = Json.str s := by
      intro p hp
      rw [List.mem_filterMap] at hp
      obtain ⟨b, hb, hfb⟩ := hp
      unfold contentBlocksOk at h
      rw [List.all_eq_true] at h
      have hb2 := h b hb
      cases b with
      | obj fb =>
        by_cases ht : optIsStr (Json.get? (.obj fb) "type") "text"
        · simp only [ht, if_true] at hfb
          simp only [ht, Bool.not_true, Bool.false_or] at hb2
          cases hv : Json.getD (.obj fb) "text" (.str "") with
          | str s => exact ⟨s, by injection hfb with hfb2; rw [← hfb2, hv]⟩
          | null => rw [hv] at hb2; simp at hb2
          | bool x => rw [hv] at hb2; simp at hb2
          | num x => rw [hv] at hb2; simp at hb2
          | arr x => rw [hv] at hb2; simp at hb2
          | obj x => rw [hv] at hb2; simp at hb2
        · simp only [ht] at hfb; simp at hfb
      | null => simp at hfb
      | bool x => simp at hfb
      | num x => simp at hfb
      | str x => simp at hfb
      | arr x => simp at hfb
    obtain ⟨ss, hss⟩ := allStrings_isSome _ hp
    exact ⟨String.intercalate "\n" ss, by simp [_extract_text_content, hss]⟩

/-- On a good line, the first pass cannot raise. -/
theorem lineStep_ok_of_goodLine (l : Line) (h : goodLine l = true) :
    ∃ m?, lineStep l = .ok m? := by
  rcases l with ⟨raw, js⟩
  by_cases hs : (pyStrip raw).isEmpty
  · cases js <;> exact ⟨none, by simp [lineStep, hs]⟩
  · cases js with
    | none => exact ⟨none, by simp [lineStep, hs]⟩
    | some j =>
      cases j with
      | null => simp [goodLine, hs] at h
      | bool b => simp [goodLine, hs] at h
      | num n => simp [goodLine, hs] at h
      | str s => simp [goodLine, hs] at h
      | arr a => simp [goodLine, hs] at h
      | obj mfs0 =>
        simp only [goodLine, hs, Bool.false_or] at h
        simp only [lineStep, hs, Bool.false_eq_true, if_false]
        by_cases h1 : (optIsStr (Json.get? (.obj mfs0) "type") "user" ||
            optIsStr (Json.get? (.obj mfs0) "type") "assistant") = true
        · simp only [h1, Bool.not_true, if_false, Bool.false_eq_true]
          by_cases h2 : ((Json.getD (.obj mfs0) "isSidechain" .null).truthy ||
              (Json.getD (.obj mfs0) "isMeta" .null).truthy) = true
          · exact ⟨none, by simp [h2]⟩
          · simp only [Bool.not_eq_true] at h2
            simp only [h2, Bool.false_eq_true, if_false]
            cases hm : Json.getD (.obj mfs0) "message" (.obj .onil) with
            | obj mfs =>
              rw [hm] at h
              dsimp only at h ⊢
              obtain ⟨text, hx⟩ := extract_text_ok_of_contentBlocksOk _ h
              rw [hx]
              by_cases hmk : (!text.isEmpty &&
                  (pyStartsWith (pyStrip text) "<command-name>" ||
                   pyStartsWith (pyStrip text) "<local-command")) = true
              · exact ⟨none, by simp [hmk]⟩
              · simp only [Bool.not_eq_true] at hmk
                exact ⟨some
                  { role := (Json.obj mfs).getD "role" (.str "")
                    content := (Json.obj mfs).getD "content" (.str "")
                    text := text
                    timestamp := (Json.obj mfs0).getD "timestamp" (.str "")
                    model := (Json.obj mfs).getD "model" (.str "")
                    raw_line := pyStrip raw }, by simp [hmk]⟩
            | null => exact ⟨none, rfl⟩
            | bool b => exact ⟨none, rfl⟩
            | num n => exact ⟨none, rfl⟩
            | str s => exact ⟨none, rfl⟩
            | arr a => exact ⟨none, rfl⟩
        · simp only [Bool.not_eq_true] at h1
          exact ⟨none, by simp [h1]⟩

/-- A first pass over good lines cannot raise. -/
theorem firstPass_ok_of_goodLines (ls : List Line) (h : ∀ l ∈ ls, goodLine l = true) :
    ∃ ms, firstPass ls = .ok ms := by
  induction ls with
  | nil => exact ⟨[], rfl⟩
  | cons l ls ih =>
    obtain ⟨m?, hm⟩ := lineStep_ok_of_goodLine l (h l (by simp))
    obtain ⟨ms, hms⟩ := ih fun x hx => h x (by simp [hx])
    cases m? with
    | none => exact ⟨ms, by simp [firstPass, hm, hms]⟩
    | some m => exact ⟨m :: ms, by simp [firstPass, hm, hms]⟩

/-- Claim C7 (amended): `parse_session_into_turns` returns a turn list and
raises no exception on every input whose lines are blank, fail to decode as
JSON, or decode to a JSON object whose `message.content` text-typed blocks
carry string `text` values.  (As stated the claim is false: a line holding a
non-object JSON value raises `AttributeError`, and a text block with a
non-string `text` raises `TypeError`; see the counterexample.) -/
theorem parse_session_total_on_good_lines (ls : List Line)
    (h : ∀ l ∈ ls, goodLine l = true) :
    ∃ ts, parse_session_into_turns ls = .ok ts := by
  obtain ⟨ms, hm⟩ := firstPass_ok_of_goodLines ls h
  exact ⟨groupTurns ms, by unfold parse_session_into_turns; rw [hm]; rfl⟩

/-- Witness for the amended C7 at a concrete good transcript. -/
theorem parse_session_total_on_good_lines_witness :
    (∀ l ∈ [wUser1, wSide, wAsst1, wNonJson], goodLine l = true) ∧
    ∃ ts, parse_session_into_turns [wUser1, wSide, wAsst1, wNonJson] = .ok ts :=
  ⟨by decide, parse_session_total_on_good_lines _ (by decide)⟩

/-! ## `Json.beq` agrees with equality -/

/-- Soundness of the fuel-free size-bounded induction: `Json.beq` implies
equality (simultaneously over the three mutual types). -/
theorem beq_eq_aux : ∀ n : Nat,
    (∀ a : Json, sizeOf a ≤ n → ∀ b, Json.beq a b = true → a = b) ∧
    (∀ l : JList, sizeOf l ≤ n → ∀ m, JList.beq l m = true → l = m) ∧
    (∀ o : JObj, sizeOf o ≤ n → ∀ p, JObj.beq o p = true → o = p) := by
  intro n
  induction n with
  | zero =>
    refine ⟨fun a ha => absurd ha ?_, fun l hl => absurd hl ?_, fun o ho => absurd ho ?_⟩
    · cases a <;> simp
    · cases l <;> simp
    · cases o <;> simp
  | succ n ih =>
    obtain ⟨ih1, ih2, ih3⟩ := ih
    refine ⟨fun a ha b hb => ?_, fun l hl m hm => ?_, fun o ho p hp => ?_⟩
    · cases a with
      | null => cases b <;> simp_all [Json.beq]
      | bool x => cases b <;> simp_all [Json.beq]
      | num x => cases b <;> simp_all [Json.beq]
      | str x => cases b <;> simp_all [Json.beq]
      | arr x =>
        cases b <;> simp_all [Json.beq]
        exact ih2 x (by omega) _ hb
      | obj x =>
        cases b <;> simp_all [Json.beq]
        exact ih3 x (by omega) _ hb
    · cases l with
      | nil => cases m <;> simp_all [JList.beq]
      | cons a as =>
        cases m <;> simp_all [JList.beq]
        exact ⟨ih1 a (by omega) _ hm.1, ih2 as (by omega) _ hm.2⟩
    · cases o with
      | onil => cases p <;> simp_all [JObj.beq]
      | ocons k a as =>
        cases p <;> simp_all [JObj.beq]
        obtain ⟨⟨hk, ha2⟩, hrest⟩ := hp
        exact ⟨ih1 a (by omega) _ ha2, ih3 as (by omega) _ hrest⟩

/-- Reflexivity of `Json.beq` (size-bounded induction). -/
theorem beq_refl_aux : ∀ n : Nat,
    (∀ a : Json, sizeOf a ≤ n → Json.beq a a = true) ∧
    (∀ l : JList, sizeOf l ≤ n → JList.beq l l = true) ∧
    (∀ o : JObj, sizeOf o ≤ n → JObj.beq o o = true) := by
  intro n
  induction n with
  | zero =>
    refine ⟨fun a ha => absurd ha ?_, fun l hl => absurd hl ?_, fun o ho => absurd ho ?_⟩
    · cases a <;> simp
    · cases l <;> simp
    · cases o <;> simp
  | succ n ih =>
    obtain ⟨ih1, ih2, ih3⟩ := ih
    refine ⟨fun a ha => ?_, fun l hl => ?_, fun o ho => ?_⟩
    · cases a with
      | null => rfl
      | bool x => simp [Json.beq]
      | num x => simp [Json.beq]
      | str x => simp [Json.beq]
      | arr x => simp only [Json.beq]; exact ih2 x (by simp at ha; omega)
      | obj x => simp only [Json.beq]; exact ih3 x (by simp at ha; omega)
    · cases l with
      | nil => rfl
      | cons a as =>
        simp only [JList.beq, Bool.and_eq_true]
        exact ⟨ih1 a (by simp at hl; omega), ih2 as (by simp at hl; omega)⟩
    · cases o with
      | onil => rfl
      | ocons k a as =>
        simp only [JObj.beq, Bool.and_eq_true]
        exact ⟨⟨by simp, ih1 a (by simp at ho; omega)⟩, ih3 as (by simp at ho; omega)⟩

/-- `Json.beq` decides equality. -/
theorem Json.beq_iff (a b : Json) : Json.beq a b = true ↔ a = b :=
  ⟨fun h => (beq_eq_aux (sizeOf a)).1 a le_rfl b h,
   fun h => h ▸ (beq_refl_aux (sizeOf a)).1 a le_rfl⟩

/-- Python `in` on JSON lists is list membership. -/
theorem jContains_iff (l : List Json) (x : Json) : jContains l x = true ↔ x ∈ l := by
  unfold jContains
  rw [List.any_eq_true]
  constructor
  · rintro ⟨y, hy, hbeq⟩
    rwa [(Json.beq_iff y x).mp hbeq] at hy
  · intro hx
    exact ⟨x, hx, (Json.beq_iff x x).mpr rfl⟩

/-! ## Characterizing the grouping pass -/

/-- `absorb` never changes the user message. -/
theorem foldl_absorb_user_message (as : List Msg) (c : PTurn) :
    (as.foldl absorb c).user_message = c.user_message := by
  induction as generalizing c with
  | nil => rfl
  | cons m as ih => rw [List.foldl_cons, ih]; rfl

/-- `absorb` appends exactly one raw line per absorbed message. -/
theorem foldl_absorb_raw_lines (as : List Msg) (c : PTurn) :
    (as.foldl absorb c).raw_lines = c.raw_lines ++ as.map Msg.raw_line := by
  induction as generalizing c with
  | nil => simp
  | cons m as ih =>
    rw [List.foldl_cons, ih]
    simp [absorb]

/-- The accumulated turn of a grouping carries the user text. -/
theorem ptOf_user_message (g : Msg × List Msg) : (ptOf g).user_message = g.1.text := by
  rw [ptOf, foldl_absorb_user_message]; rfl

/-- The accumulated turn of a grouping carries exactly the grouping's raw
lines. -/
theorem ptOf_raw_lines (g : Msg × List Msg) :
    (ptOf g).raw_lines = g.1.raw_line :: g.2.map Msg.raw_line := by
  rw [ptOf, foldl_absorb_raw_lines]
  simp [newPTurn]

/-- Absorbing one more assistant message extends the grouping. -/
theorem ptOf_append (u : Msg) (as : List Msg) (m : Msg) :
    ptOf (u, as ++ [m]) = absorb (ptOf (u, as)) m := by
  simp [ptOf, List.foldl_append]

/-- The loop of the grouping pass, run from any state, produces exactly the
finalized non-empty-user groupings, numbered consecutively. -/
theorem groupTurns_eq (ms : List Msg) :
    ∀ (turns : List Turn) (cur : Option (Msg × List Msg)),
    finishTurns (ms.foldl groupStep (turns, cur.map ptOf)) =
      turns ++ turnsFromIdx turns.length (groupsAux cur ms) := by
  induction ms with
  | nil =>
    intro turns cur
    cases cur with
    | none => simp [finishTurns, groupsAux, turnsFromIdx]
    | some g =>
      simp only [List.foldl_nil, finishTurns, groupsAux, Option.toList_some, Option.map_some']
      rw [ptOf_user_message]
      by_cases hk : (!g.1.text.isEmpty) = true
      · simp [turnsFromIdx, hk]
      · simp only [Bool.not_eq_true] at hk
        simp [turnsFromIdx, hk]
  | cons m ms ih =>
    intro turns cur
    rw [List.foldl_cons]
    by_cases hu : isUser m = true
    · cases cur with
      | none =>
        have hstep : groupStep (turns, (none : Option (Msg × List Msg)).map ptOf) m
            = (turns, (some (m, ([] : List Msg))).map ptOf) := by
          simp [groupStep, hu]; rfl
        rw [hstep, ih]
        simp [groupsAux, hu]
      | some g =>
        rcases g with ⟨u, as⟩
        by_cases hk : (!u.text.isEmpty) = true
        · have hstep : groupStep (turns, (some (u, as)).map ptOf) m
              = (turns ++ [_finalize_turn (ptOf (u, as)) turns.length],
                 (some (m, ([] : List Msg))).map ptOf) := by
            simp only [groupStep, hu, if_true, Option.map_some']
            rw [ptOf_user_message]
            simp [hk]; rfl
          rw [hstep, ih]
          simp only [groupsAux, hu, if_true, Option.toList_some, List.singleton_append,
            turnsFromIdx, hk, List.length_append, List.length_cons, List.length_nil]
          simp [List.append_assoc]
        · simp only [Bool.not_eq_true] at hk
          have hstep : groupStep (turns, (some (u, as)).map ptOf) m
              = (turns, (some (m, ([] : List Msg))).map ptOf) := by
            simp only [groupStep, hu, if_true, Option.map_some']
            rw [ptOf_user_message]
            simp [hk]; rfl
          rw [hstep, ih]
          simp [groupsAux, hu, turnsFromIdx, hk]
    · by_cases ha : isAssistant m = true
      · cases cur with
        | none =>
          have hstep : groupStep (turns, (none : Option (Msg × List Msg)).map ptOf) m
              = (turns, (none : Option (Msg × List Msg)).map ptOf) := by
            simp [groupStep, hu, ha]
          rw [hstep, ih]
          simp [groupsAux, hu, ha]
        | some g =>
          rcases g with ⟨u, as⟩
          have hstep : groupStep (turns, (some (u, as)).map ptOf) m
              = (turns, (some (u, as ++ [m])).map ptOf) := by
            simp [groupStep, hu, ha, ptOf_append]
          rw [hstep, ih]
          simp [groupsAux, hu, ha]
      · have hstep : groupStep (turns, cur.map ptOf) m = (turns, cur.map ptOf) := by
          simp [groupStep, hu, ha]
        rw [hstep, ih]
        simp [groupsAux, hu, ha]

/-- The grouping pass equals the reference grouping. -/
theorem groupTurns_characterization (ms : List Msg) :
    groupTurns ms = turnsFromIdx 0 (groupsOf ms) := by
  have h := groupTurns_eq ms [] none
  simpa [groupTurns, groupsOf] using h

/-- Members of the finalized list come from kept groupings. -/
theorem mem_turnsFromIdx (gs : List (Msg × List Msg)) :
    ∀ (k : Nat) (t : Turn), t ∈ turnsFromIdx k gs →
    ∃ g ∈ gs, (!g.1.text.isEmpty) = true ∧ ∃ j, t = _finalize_turn (ptOf g) j := by
  induction gs with
  | nil => intro k t ht; simp [turnsFromIdx] at ht
  | cons g gs ih =>
    intro k t ht
    by_cases hk : (!g.1.text.isEmpty) = true
    · simp only [turnsFromIdx, hk, if_true] at ht
      rcases List.mem_cons.mp ht with h | h
      · exact ⟨g, List.mem_cons_self g gs, hk, k, h⟩
      · obtain ⟨g2, hg2, hk2, j, hj⟩ := ih (k + 1) t h
        exact ⟨g2, List.mem_cons_of_mem g hg2, hk2, j, hj⟩
    · simp only [turnsFromIdx, hk, Bool.false_eq_true, if_false] at ht
      obtain ⟨g2, hg2, hk2, j, hj⟩ := ih k t ht
      exact ⟨g2, List.mem_cons_of_mem g hg2, hk2, j, hj⟩

/-- The finalized list keeps one turn per non-empty-user grouping. -/
theorem turnsFromIdx_length (gs : List (Msg × List Msg)) :
    ∀ k, (turnsFromIdx k gs).length =
      ((gs.filter fun g => !g.1.text.isEmpty).length) := by
  induction gs with
  | nil => intro k; rfl
  | cons g gs ih =>
    intro k
    by_cases hk : (!g.1.text.isEmpty) = true
    · simp [turnsFromIdx, hk, List.filter_cons, ih]
    · simp only [Bool.not_eq_true] at hk
      simp [turnsFromIdx, hk, List.filter_cons, ih]

/-- Every grouping starts at a user-role message and collects only
assistant-role messages. -/
theorem groupsAux_roles (ms : List Msg) :
    ∀ (cur : Option (Msg × List Msg)),
    (∀ g ∈ cur.toList, isUser g.1 = true ∧ ∀ m ∈ g.2, isAssistant m = true) →
    ∀ g ∈ groupsAux cur ms, isUser g.1 = true ∧ ∀ m ∈ g.2, isAssistant m = true := by
  induction ms with
  | nil =>
    intro cur hcur g hg
    simp only [groupsAux] at hg
    exact hcur g hg
  | cons m ms ih =>
    intro cur hcur g hg
    by_cases hu : isUser m = true
    · simp only [groupsAux, hu, if_true] at hg
      rcases List.mem_append.mp hg with h | h
      · exact hcur g h
      · refine ih (some (m, [])) ?_ g h
        rintro g2 hg2
        simp only [Option.toList_some, List.mem_singleton] at hg2
        subst hg2
        exact ⟨hu, by simp⟩
    · by_cases ha : isAssistant m = true
      · simp only [groupsAux, hu, Bool.false_eq_true, if_false, ha, if_true] at hg
        refine ih (cur.map fun g => (g.1, g.2 ++ [m])) ?_ g hg
        rintro g2 hg2
        cases cur with
        | none => simp at hg2
        | some g0 =>
          simp only [Option.map_some', Option.toList_some, List.mem_singleton] at hg2
          subst hg2
          obtain ⟨h1, h2⟩ := hcur g0 (by simp)
          refine ⟨h1, fun x hx => ?_⟩
          rcases List.mem_append.mp hx with h | h
          · exact h2 x h
          · simp only [List.mem_singleton] at h
            subst h; exact ha
      · simp only [groupsAux, hu, Bool.false_eq_true, if_false, ha] at hg
        exact ih cur hcur g hg

/-- A grouping absorbs every assistant message until the next user message
or end of input (the reference grouping in the words of the spec). -/
theorem groupsAux_some_eq (u : Msg) (ms : List Msg) :
    ∀ as, groupsAux (some (u, as)) ms =
      (u, as ++ (ms.takeWhile fun m => !isUser m).filter isAssistant) ::
        groupsAux none (ms.dropWhile fun m => !isUser m) := by
  induction ms with
  | nil => intro as; simp [groupsAux]
  | cons m ms ih =>
    intro as
    by_cases hu : isUser m = true
    · simp [groupsAux, hu, List.takeWhile_cons, List.dropWhile_cons]
    · by_cases ha : isAssistant m = true
      · simp [groupsAux, hu, ha, ih, List.takeWhile_cons, List.dropWhile_cons,
          List.filter_cons]
      · simp [groupsAux, hu, ha, ih, List.takeWhile_cons, List.dropWhile_cons,
          List.filter_cons]

/-! ## C10 and C3: which groupings become turns -/

/-- A `false` `isEmpty` means a non-empty string. -/
theorem ne_empty_of_isEmpty_false {s : String} (h : s.isEmpty = false) : s ≠ "" := by
  intro he
  rw [he] at h
  exact absurd h (by decide)

/-- Concrete transcript line: a user-typed entry whose content is only a
`tool_result` block, so its extracted text is empty. -/
def wUserEmpty : Line :=
  { raw := "\x7b\"type\": \"user\", \"message\": \x7b\"role\": \"user\", \"content\": [\x7b\"type\": \"tool_result\", \"content\": \"ok\"\x7d]\x7d, \"timestamp\": \"2026-02-10T12:01:00Z\"\x7d"
    js := some (.obj (JObj.ofList
      [("type", .str "user"),
       ("message", .obj (JObj.ofList
         [("role", .str "user"),
          ("content", .arr (JList.ofList
            [.obj (JObj.ofList [("type", .str "tool_result"), ("content", .str "ok")])]))])),
       ("timestamp", .str "2026-02-10T12:01:00Z")])) }

/-- Concrete transcript line: a second assistant entry. -/
def wAsst2 : Line :=
  { raw := "\x7b\"type\": \"assistant\", \"message\": \x7b\"role\": \"assistant\", \"model\": \"claude-3\", \"content\": [\x7b\"type\": \"text\", \"text\": \"It works.\"\x7d]\x7d, \"timestamp\": \"2026-02-10T12:01:30Z\"\x7d"
    js := some (.obj (JObj.ofList
      [("type", .str "assistant"),
       ("message", .obj (JObj.ofList
         [("role", .str "assistant"), ("model", .str "claude-3"),
          ("content", .arr (JList.ofList
            [.obj (JObj.ofList [("type", .str "text"), ("text", .str "It works.")])]))])),
       ("timestamp", .str "2026-02-10T12:01:30Z")])) }

/-- Claim C10: every returned turn has a non-empty `user_message`.  A
user-role message with empty extracted text (e.g. tool_result-only content)
still starts a new grouping — closing the previous turn — and the returned
turns are exactly the finalized groupings whose user text is non-empty, so
an empty-text grouping, with every assistant message absorbed into it, is
silently discarded rather than returned or merged into the preceding
turn. -/
theorem parse_turns_nonempty_user_and_empty_groups_discarded
    (ls : List Line) (ms : List Msg) (ts : List Turn)
    (hm : firstPass ls = .ok ms) (ht : parse_session_into_turns ls = .ok ts) :
    (∀ t ∈ ts, t.user_message ≠ "") ∧ ts = turnsFromIdx 0 (groupsOf ms) := by
  have hts : ts = groupTurns ms := by
    unfold parse_session_into_turns at ht
    rw [hm] at ht
    exact (Except.ok.inj ht).symm
  subst hts
  rw [groupTurns_characterization]
  refine ⟨fun t htm => ?_, rfl⟩
  obtain ⟨g, _, hk, j, hj⟩ := mem_turnsFromIdx (groupsOf ms) 0 t htm
  have : t.user_message = g.1.text := by
    rw [hj]
    show (ptOf g).user_message = g.1.text
    exact ptOf_user_message g
  rw [this]
  rw [Bool.not_eq_true'] at hk
  exact ne_empty_of_isEmpty_false hk

/-- Witness for C10 on a concrete transcript with an empty-text user entry
followed by an assistant entry. -/
theorem parse_turns_nonempty_user_witness :
    ∃ ms ts, firstPass [wUser1, wAsst1, wUserEmpty, wAsst2] = .ok ms ∧
      parse_session_into_turns [wUser1, wAsst1, wUserEmpty, wAsst2] = .ok ts ∧
      (∀ t ∈ ts, t.user_message ≠ "") ∧ ts = turnsFromIdx 0 (groupsOf ms) := by
  obtain ⟨ms, hm⟩ : ∃ ms, firstPass [wUser1, wAsst1, wUserEmpty, wAsst2] = .ok ms := ⟨_, rfl⟩
  obtain ⟨ts, ht⟩ : ∃ ts,
      parse_session_into_turns [wUser1, wAsst1, wUserEmpty, wAsst2] = .ok ts := ⟨_, rfl⟩
  obtain ⟨h1, h2⟩ := parse_turns_nonempty_user_and_empty_groups_discarded _ ms ts hm ht
  exact ⟨ms, ts, hm, ht, h1, h2⟩

/-- Claim C3 counterexample: in the four-line transcript below, the final
assistant entry survives the first pass (it is skipped by no rule), yet its
raw line belongs to no returned turn: the empty-text user entry before it
started a grouping that is discarded.  So not every non-skipped assistant
message after the first user message belongs to exactly one returned
turn. -/
theorem assistant_message_in_no_returned_turn :
    (firstPass [wUser1, wAsst1, wUserEmpty, wAsst2]).map (List.map Msg.raw_line) =
      .ok [pyStrip wUser1.raw, pyStrip wAsst1.raw,
           pyStrip wUserEmpty.raw, pyStrip wAsst2.raw] ∧
    (parse_session_into_turns [wUser1, wAsst1, wUserEmpty, wAsst2]).map
        (List.map Turn.raw_lines) =
      .ok [[pyStrip wUser1.raw, pyStrip wAsst1.raw]] ∧
    pyStrip wAsst2.raw ∉ [pyStrip wUser1.raw, pyStrip wAsst1.raw] :=
  ⟨rfl, rfl, by decide⟩

/-- Claim C3 (amended): each returned turn begins at a user-role message
with non-empty extracted text and contains exactly that message's raw line
followed by the raw lines of the assistant-role messages of its grouping
(every following assistant message up to the next user-role message or end
of input, per `groupsAux_some_eq`); there is exactly one returned turn per
non-empty-user grouping.  Assistant messages of a grouping begun by an
empty-text user message belong to no returned turn (see C10). -/
theorem parse_turns_begin_at_user_and_absorb_assistants
    (ls : List Line) (ms : List Msg) (ts : List Turn)
    (hm : firstPass ls = .ok ms) (ht : parse_session_into_turns ls = .ok ts) :
    ts.length = ((groupsOf ms).filter fun g => !g.1.text.isEmpty).length ∧
    ∀ t ∈ ts, ∃ g ∈ groupsOf ms, (!g.1.text.isEmpty) = true ∧
      isUser g.1 = true ∧ (∀ m ∈ g.2, isAssistant m = true) ∧
      t.user_message = g.1.text ∧
      t.raw_lines = g.1.raw_line :: g.2.map Msg.raw_line := by
  have hts : ts = groupTurns ms := by
    unfold parse_session_into_turns at ht
    rw [hm] at ht
    exact (Except.ok.inj ht).symm
  subst hts
  rw [groupTurns_characterization]
  refine ⟨turnsFromIdx_length (groupsOf ms) 0, fun t htm => ?_⟩
  obtain ⟨g, hg, hk, j, hj⟩ := mem_turnsFromIdx (groupsOf ms) 0 t htm
  obtain ⟨hrole, hmems⟩ := groupsAux_roles ms none (by simp) g hg
  refine ⟨g, hg, hk, hrole, hmems, ?_, ?_⟩
  · rw [hj]
    show (ptOf g).user_message = g.1.text
    exact ptOf_user_message g
  · rw [hj]
    show (ptOf g).raw_lines = g.1.raw_line :: g.2.map Msg.raw_line
    exact ptOf_raw_lines g

/-- Witness for the amended C3 on a concrete two-turn transcript. -/
theorem parse_turns_begin_at_user_witness :
    ∃ ms ts, firstPass [wUser1, wAsst1, wUserEmpty, wAsst2] = .ok ms ∧
      parse_session_into_turns [wUser1, wAsst1, wUserEmpty, wAsst2] = .ok ts ∧
      ts.length = ((groupsOf ms).filter fun g => !g.1.text.isEmpty).length := by
  obtain ⟨ms, hm⟩ : ∃ ms, firstPass [wUser1, wAsst1, wUserEmpty, wAsst2] = .ok ms := ⟨_, rfl⟩
  obtain ⟨ts, ht⟩ : ∃ ts,
      parse_session_into_turns [wUser1, wAsst1, wUserEmpty, wAsst2] = .ok ts := ⟨_, rfl⟩
  exact ⟨ms, ts, hm, ht, (parse_turns_begin_at_user_and_absorb_assistants _ ms ts hm ht).1⟩

/-! ## C6: text extraction and tool-name collection -/

/-- The claim-side reading of the extracted text of a block list: the `text`
values of the `text`-typed dict blocks, in order (a missing `text` key
contributes the default empty string). -/
def textBlockTexts (blocks : List Json) : List String :=
  blocks.filterMap fun b =>
    match b with
    | .obj _ => if optIsStr (b.get? "type") "text"
                then some (match b.getD "text" (.str "") with | .str t => t | _ => "")
                else none
    | _ => none

/-- A `text`-typed dict block. -/
def isTextBlock : Json → Bool
| .obj o => optIsStr ((Json.obj o).get? "type") "text"
| _ => false

/-- On well-formed blocks the collected parts are exactly the text values. -/
theorem allStrings_filterMap (l : List Json)
    (h : ∀ b ∈ l, (match b with
      | .obj _ => !(optIsStr (b.get? "type") "text") ||
          (match b.getD "text" (.str "") with | .str _ => true | _ => false)
      | _ => true) = true) :
    allStrings (l.filterMap fun b =>
      match b with
      | .obj _ => if optIsStr (b.get? "type") "text"
                  then some (b.getD "text" (.str "")) else none
      | _ => none) = some (textBlockTexts l) := by
  induction l with
  | nil => rfl
  | cons b l ih =>
    have hb := h b (List.mem_cons_self b l)
    have hrest := ih fun x hx => h x (List.mem_cons_of_mem b hx)
    cases b with
    | obj fb =>
      by_cases ht : optIsStr (Json.get? (.obj fb) "type") "text" = true
      · simp only [ht, Bool.not_true, Bool.false_or] at hb
        cases hv : Json.getD (.obj fb) "text" (.str "") with
        | str t =>
          simp only [List.filterMap_cons, textBlockTexts, ht, if_true, hv]
          simp only [textBlockTexts] at hrest
          simp [allStrings, hrest]
        | null => rw [hv] at hb; simp at hb
        | bool x => rw [hv] at hb; simp at hb
        | num x => rw [hv] at hb; simp at hb
        | arr x => rw [hv] at hb; simp at hb
        | obj x => rw [hv] at hb; simp at hb
      · simp only [Bool.not_eq_true] at ht
        simp only [List.filterMap_cons, textBlockTexts, ht, Bool.false_eq_true, if_false]
        simpa [textBlockTexts] using hrest
    | null => simpa [List.filterMap_cons, textBlockTexts] using hrest
    | bool x => simpa [List.filterMap_cons, textBlockTexts] using hrest
    | num x => simpa [List.filterMap_cons, textBlockTexts] using hrest
    | str x => simpa [List.filterMap_cons, textBlockTexts] using hrest
    | arr x => simpa [List.filterMap_cons, textBlockTexts] using hrest

/-- Per-message collection equals truthy first-occurrence dedup of the raw
`tool_use` name sequence. -/
theorem extract_tool_names_eq_dtf (c : Json) :
    _extract_tool_names c = dtf [] (rawToolUseNames c) := by
  have key : ∀ (l : List Json) (acc : List Json),
      l.foldl (fun tools b =>
        match b with
        | .obj _ =>
          if optIsStr (b.get? "type") "tool_use" then
            let name := b.getD "name" (.str "")
            if name.truthy && !jContains tools name then tools ++ [name] else tools
          else tools
        | _ => tools) acc
      = dtf acc (l.filterMap fun b =>
          match b with
          | .obj _ => if optIsStr (b.get? "type") "tool_use"
                      then some (b.getD "name" (.str "")) else none
          | _ => none) := by
    intro l
    induction l with
    | nil => intro acc; rfl
    | cons b l ih =>
      intro acc
      cases b with
      | obj fb =>
        by_cases ht : optIsStr (Json.get? (.obj fb) "type") "tool_use" = true
        · simp only [List.foldl_cons, List.filterMap_cons, ht, if_true, ih, dtf,
            List.foldl_cons]
        · simp only [Bool.not_eq_true] at ht
          simp only [List.foldl_cons, List.filterMap_cons, ht, Bool.false_eq_true,
            if_false, ih, dtf]
      | null => simp only [List.foldl_cons, List.filterMap_cons, ih, dtf]
      | bool x => simp only [List.foldl_cons, List.filterMap_cons, ih, dtf]
      | num x => simp only [List.foldl_cons, List.filterMap_cons, ih, dtf]
      | str x => simp only [List.foldl_cons, List.filterMap_cons, ih, dtf]
      | arr x => simp only [List.foldl_cons, List.filterMap_cons, ih, dtf]
  cases c with
  | arr blocks => exact key blocks.toList []
  | null => rfl
  | bool x => rfl
  | num x => rfl
  | str x => rfl
  | obj x => rfl

/-- The elements a truthy first-occurrence dedup emits beyond its seen
set. -/
def dtfNews (s : List Json) : List Json → List Json
| [] => []
| n :: l => if n.truthy && !jContains s n then n :: dtfNews (s ++ [n]) l
            else dtfNews s l

/-- `dtf` extends its accumulator by the emitted news. -/
theorem dtf_eq_append_news (l : List Json) :
    ∀ s, dtf s l = s ++ dtfNews s l := by
  induction l with
  | nil => intro s; simp [dtf, dtfNews]
  | cons n l ih =>
    intro s
    by_cases hc : (n.truthy && !jContains s n) = true
    · simp only [dtf, List.foldl_cons, hc, if_true, dtfNews]
      have := ih (s ++ [n])
      simp only [dtf] at this
      rw [this]
      simp
    · simp only [dtf, List.foldl_cons, hc, Bool.false_eq_true, if_false, dtfNews]
      exact ih s

/-- Re-adding already-deduplicated names onto a larger accumulator dedups
against that accumulator. -/
theorem foldl_addNew_dtfNews (l : List Json) :
    ∀ (s acc : List Json), (∀ x ∈ s, x ∈ acc) →
    (dtfNews s l).foldl (fun acc t => if jContains acc t then acc else acc ++ [t]) acc
      = dtf acc l := by
  induction l with
  | nil => intro s acc hsub; simp [dtfNews, dtf]
  | cons n l ih =>
    intro s acc hsub
    by_cases hc : (n.truthy && !jContains s n) = true
    · simp only [dtfNews, hc, if_true, List.foldl_cons]
      obtain ⟨htr, hns⟩ : n.truthy = true ∧ (!jContains s n) = true := by simpa using hc
      by_cases hm : jContains acc n = true
      · rw [if_pos hm]
        have : dtf acc (n :: l) = dtf acc l := by
          simp [dtf, htr, hm]
        rw [this]
        refine ih (s ++ [n]) acc fun x hx => ?_
        rcases List.mem_append.mp hx with h | h
        · exact hsub x h
        · simp only [List.mem_singleton] at h
          subst h
          exact (jContains_iff acc x).mp hm
      · simp only [Bool.not_eq_true] at hm
        rw [if_neg (by simp [hm])]
        have : dtf acc (n :: l) = dtf (acc ++ [n]) l := by
          simp [dtf, htr, hm]
        rw [this]
        refine ih (s ++ [n]) (acc ++ [n]) fun x hx => ?_
        rcases List.mem_append.mp hx with h | h
        · exact List.mem_append_left _ (hsub x h)
        · exact List.mem_append_right _ h
    · simp only [dtfNews, hc, Bool.false_eq_true, if_false]
      have hc2 : n.truthy = false ∨ jContains s n = true := by
        cases htr : n.truthy
        · exact Or.inl rfl
        · cases hjs : jContains s n
          · exact absurd (by simp [htr, hjs]) hc
          · exact Or.inr rfl
      rcases hc2 with htr | hns
      · have : dtf acc (n :: l) = dtf acc l := by simp [dtf, htr]
        rw [this]
        exact ih s acc hsub
      · have hacc : jContains acc n = true :=
          (jContains_iff acc n).mpr (hsub n ((jContains_iff s n).mp hns))
        have : dtf acc (n :: l) = dtf acc l := by simp [dtf, hacc]
        rw [this]
        exact ih s acc hsub

/-- Composition: per-message dedup followed by turn-level dedup equals one
dedup over the concatenation. -/
theorem foldl_addNew_dtf (l acc : List Json) :
    (dtf [] l).foldl (fun acc t => if jContains acc t then acc else acc ++ [t]) acc
      = dtf acc l := by
  have h := dtf_eq_append_news l []
  rw [List.nil_append] at h
  rw [h]
  exact foldl_addNew_dtfNews l [] acc (by simp)

/-- Turn-level accumulation over assistant messages equals one dedup over
the concatenated raw tool-name sequences. -/
theorem foldl_absorb_tool_names (as : List Msg) :
    ∀ c : PTurn, (as.foldl absorb c).tool_names
      = dtf c.tool_names (as.flatMap fun m => rawToolUseNames m.content) := by
  induction as with
  | nil => intro c; simp [dtf]
  | cons m as ih =>
    intro c
    rw [List.foldl_cons, ih]
    have habs : (absorb c m).tool_names = dtf c.tool_names (rawToolUseNames m.content) := by
      show (_extract_tool_names m.content).foldl
          (fun acc t => if jContains acc t then acc else acc ++ [t]) c.tool_names = _
      rw [extract_tool_names_eq_dtf]
      exact foldl_addNew_dtf (rawToolUseNames m.content) c.tool_names
    rw [habs, List.flatMap_cons]
    simp [dtf, List.foldl_append]

/-- The dedup keeps its output duplicate-free. -/
theorem dtf_nodup (l : List Json) :
    ∀ acc, acc.Nodup → (dtf acc l).Nodup := by
  induction l with
  | nil => intro acc h; simpa [dtf] using h
  | cons n l ih =>
    intro acc h
    by_cases hc : (n.truthy && !jContains acc n) = true
    · obtain ⟨htr, hni⟩ : n.truthy = true ∧ (!jContains acc n) = true := by simpa using hc
      have hni2 : jContains acc n = false := by simpa using hni
      have : dtf acc (n :: l) = dtf (acc ++ [n]) l := by simp [dtf, htr, hni2]
      rw [this]
      refine ih (acc ++ [n]) ?_
      have hnm : ¬n ∈ acc := by
        intro hmem
        rw [(jContains_iff acc n).mpr hmem] at hni2
        exact absurd hni2 (by simp)
      simp [List.nodup_append, h, hnm]
    · have : dtf acc (n :: l) = dtf acc l := by
        simp only [dtf, List.foldl_cons, hc, Bool.false_eq_true, if_false]
      rw [this]
      exact ih acc h

/-- `ofList` and `toList` are inverse. -/
theorem JList.toList_ofList (l : List Json) : (JList.ofList l).toList = l := by
  induction l with
  | nil => rfl
  | cons a as ih => simp [JList.ofList, JList.toList, ih]

/-- A content list holding one `text`-typed block whose `text` is the number
5 rather than a string. -/
def wBadTextBlocks : Json :=
  .arr (JList.ofList [.obj (JObj.ofList [("type", .str "text"), ("text", .num 5)])])

/-- Claim C6 counterexample: list content does not always yield a
concatenation — a `text`-typed block carrying a non-string `text` value
makes `"\n".join(text_parts)` raise `TypeError`, so extraction yields no
string at all for this content. -/
theorem extract_text_raises_on_non_string_text :
    _extract_text_content wBadTextBlocks = .error .typeError := rfl

/-- Claim C6 (amended): (1) string content passes through verbatim; (2) for
list content whose `text`-typed blocks carry string `text` values, the
result is exactly the newline-join of those values; (3) a non-`text` block
contributes nothing to the text (deleting it does not change extraction);
(4) every parsed turn's `tool_names` is the truthy first-occurrence
deduplication of the `tool_use` names of its grouping's assistant messages,
in order, hence contains each name at most once.  (As stated the claim is
false only in that a malformed `text` block raises instead of yielding a
concatenation; see the counterexample.) -/
theorem extract_text_and_tool_names :
    (∀ s : String, _extract_text_content (.str s) = .ok s) ∧
    (∀ bs : JList, contentBlocksOk (.arr bs) = true →
      _extract_text_content (.arr bs) =
        .ok (String.intercalate "\n" (textBlockTexts bs.toList))) ∧
    (∀ (xs ys : List Json) (b : Json), isTextBlock b = false →
      _extract_text_content (.arr (JList.ofList (xs ++ b :: ys))) =
        _extract_text_content (.arr (JList.ofList (xs ++ ys)))) ∧
    (∀ (ls : List Line) (ms : List Msg) (ts : List Turn),
      firstPass ls = .ok ms → parse_session_into_turns ls = .ok ts →
      ∀ t ∈ ts, ∃ g ∈ groupsOf ms,
        t.tool_names = dtf [] (g.2.flatMap fun m => rawToolUseNames m.content) ∧
        t.tool_names.Nodup) := by
  refine ⟨fun s => rfl, fun bs h => ?_, fun xs ys b hb => ?_, fun ls ms ts hm ht => ?_⟩
  · unfold contentBlocksOk at h
    rw [List.all_eq_true] at h
    have := allStrings_filterMap bs.toList h
    simp [_extract_text_content, this]
  · cases b with
    | obj fb =>
      have hb2 : optIsStr (Json.get? (.obj fb) "type") "text" = false := hb
      simp [_extract_text_content, JList.toList_ofList, List.filterMap_append,
        List.filterMap_cons, hb2]
    | null =>
      simp [_extract_text_content, JList.toList_ofList, List.filterMap_append,
        List.filterMap_cons]
    | bool x =>
      simp [_extract_text_content, JList.toList_ofList, List.filterMap_append,
        List.filterMap_cons]
    | num x =>
      simp [_extract_text_content, JList.toList_ofList, List.filterMap_append,
        List.filterMap_cons]
    | str x =>
      simp [_extract_text_content, JList.toList_ofList, List.filterMap_append,
        List.filterMap_cons]
    | arr x =>
      simp [_extract_text_content, JList.toList_ofList, List.filterMap_append,
        List.filterMap_cons]
  · have hts : ts = groupTurns ms := by
      unfold parse_session_into_turns at ht
      rw [hm] at ht
      exact (Except.ok.inj ht).symm
    subst hts
    rw [groupTurns_characterization]
    intro t htm
    obtain ⟨g, hg, hk, j, hj⟩ := mem_turnsFromIdx (groupsOf ms) 0 t htm
    refine ⟨g, hg, ?_, ?_⟩
    · rw [hj]
      show (ptOf g).tool_names = _
      rw [ptOf, foldl_absorb_tool_names]
      rfl
    · rw [hj]
      show (ptOf g).tool_names.Nodup
      rw [ptOf, foldl_absorb_tool_names]
      exact dtf_nodup _ _ (by simp [newPTurn])

/-- A well-formed text block and a tool block, for the witness. -/
def wTextBlock : Json := .obj (JObj.ofList [("type", .str "text"), ("text", .str "Done.")])

/-- A `tool_use` block, for the witness. -/
def wToolBlock : Json :=
  .obj (JObj.ofList [("type", .str "tool_use"), ("name", .str "Read"), ("input", .obj .onil)])

/-- A two-block content list, for the witness. -/
def wC1 : JList := JList.ofList [wTextBlock, wToolBlock]

/-- Witness for the amended C6 at concrete content and a concrete
transcript. -/
theorem extract_text_and_tool_names_witness :
    _extract_text_content (.str "hello") = .ok "hello" ∧
    (contentBlocksOk (.arr wC1) = true ∧
      _extract_text_content (.arr wC1) =
        .ok (String.intercalate "\n" (textBlockTexts wC1.toList))) ∧
    (isTextBlock wToolBlock = false ∧
      _extract_text_content (.arr (JList.ofList ([wTextBlock] ++ wToolBlock :: []))) =
        _extract_text_content (.arr (JList.ofList ([wTextBlock] ++ [])))) ∧
    ∃ ms ts, firstPass [wUser1, wAsst1] = .ok ms ∧
      parse_session_into_turns [wUser1, wAsst1] = .ok ts ∧
      ∀ t ∈ ts, ∃ g ∈ groupsOf ms,
        t.tool_names = dtf [] (g.2.flatMap fun m => rawToolUseNames m.content) ∧
        t.tool_names.Nodup := by
  have h := extract_text_and_tool_names
  refine ⟨h.1 "hello", ⟨by decide, h.2.1 wC1 (by decide)⟩,
    ⟨by decide, h.2.2.1 [wTextBlock] [] wToolBlock (by decide)⟩, ?_⟩
  obtain ⟨ms, hm⟩ : ∃ ms, firstPass [wUser1, wAsst1] = .ok ms := ⟨_, rfl⟩
  obtain ⟨ts, ht⟩ : ∃ ts, parse_session_into_turns [wUser1, wAsst1] = .ok ts := ⟨_, rfl⟩
  exact ⟨ms, ts, hm, ht, h.2.2.2 [wUser1, wAsst1] ms ts hm ht⟩

/-! ## C4: the content hash is the MD5 of exactly the raw lines -/

/-- Base-256 value of a little-endian byte list. -/
def bytesToNat : List Nat → Nat
| [] => 0
| b :: bs => b + 256 * bytesToNat bs

/-- `leBytes` produces `n` bytes. -/
theorem leBytes_length (n : Nat) : ∀ v, (leBytes v n).length = n := by
  induction n with
  | zero => intro v; rfl
  | succ n ih => intro v; simp [leBytes, ih]

/-- `leBytes` bytes are below 256. -/
theorem leBytes_lt (n : Nat) : ∀ v, ∀ x ∈ leBytes v n, x < 256 := by
  induction n with
  | zero => intro v x hx; simp [leBytes] at hx
  | succ n ih =>
    intro v x hx
    rcases List.mem_cons.mp hx with h | h
    · subst h; exact Nat.mod_lt _ (by omega)
    · exact ih _ x h

/-- Byte lists decode below `256 ^ length`. -/
theorem bytesToNat_lt (l : List Nat) (h : ∀ x ∈ l, x < 256) :
    bytesToNat l < 256 ^ l.length := by
  induction l with
  | nil => simp [bytesToNat]
  | cons b bs ih =>
    have hb := h b (List.mem_cons_self b bs)
    have hr := ih fun x hx => h x (List.mem_cons_of_mem b hx)
    simp only [bytesToNat, List.length_cons, pow_succ]
    calc b + 256 * bytesToNat bs < 256 + 256 * bytesToNat bs := by omega
    _ = 256 * (bytesToNat bs + 1) := by ring
    _ ≤ 256 * 256 ^ bs.length := by
        exact Nat.mul_le_mul_left 256 (by omega)
    _ = 256 ^ bs.length * 256 := by ring

/-- Same-length byte lists with equal decodings are equal. -/
theorem bytesToNat_inj (l1 : List Nat) :
    ∀ l2, l1.length = l2.length → (∀ x ∈ l1, x < 256) → (∀ x ∈ l2, x < 256) →
    bytesToNat l1 = bytesToNat l2 → l1 = l2 := by
  induction l1 with
  | nil => intro l2 hlen _ _ _; cases l2 with
    | nil => rfl
    | cons b bs => simp at hlen
  | cons b bs ih =>
    intro l2 hlen h1 h2 heq
    cases l2 with
    | nil => simp at hlen
    | cons c cs =>
      have hb := h1 b (List.mem_cons_self b bs)
      have hc := h2 c (List.mem_cons_self c cs)
      simp only [bytesToNat] at heq
      have hbc : b = c ∧ bytesToNat bs = bytesToNat cs := by omega
      have := ih cs (by simpa using hlen)
        (fun x hx => h1 x (List.mem_cons_of_mem b hx))
        (fun x hx => h2 x (List.mem_cons_of_mem c hx)) hbc.2
      rw [hbc.1, this]

/-- The digest has 16 bytes, all below 256. -/
theorem md5Digest_bytes (msg : List Nat) :
    (md5Digest msg).length = 16 ∧ ∀ x ∈ md5Digest msg, x < 256 := by
  unfold md5Digest
  constructor
  · simp [leBytes_length]
  · intro x hx
    simp only [List.mem_append] at hx
    rcases hx with ((h | h) | h) | h <;> exact leBytes_lt 4 _ x h

/-- The string of `n` letters `a` (a valid, newline-free log line). -/
def aStr (n : Nat) : String := ⟨List.replicate n 'a'⟩

/-- Distinct lengths give distinct strings. -/
theorem aStr_inj {m n : Nat} (h : aStr m = aStr n) : m = n := by
  have : (aStr m).data = (aStr n).data := by rw [h]
  simpa [aStr] using congrArg List.length this

/-- Claim C4 counterexample (negation of the injectivity clause): two
different newline-free line lists whose newline-joins have the same
`compute_content_hash`.  MD5 has at most `2 ^ 128` digests while there are
infinitely many single-line lists, so by pigeonhole some edit to the
underlying lines does not change the hash.  (Nonconstructive: the witness
pair exists but is astronomically hard to exhibit.) -/
theorem content_hash_not_injective :
    ∃ l1 l2 : List String, l1 ≠ l2 ∧
      (∀ s ∈ l1 ++ l2, ¬ '\n' ∈ s.data) ∧
      compute_content_hash (String.intercalate "\n" l1) =
        compute_content_hash (String.intercalate "\n" l2) := by
  have hfin : ∀ k, bytesToNat (md5Digest (utf8Bytes (aStr k))) < 256 ^ 16 := by
    intro k
    obtain ⟨hlen, hlt⟩ := md5Digest_bytes (utf8Bytes (aStr k))
    have := bytesToNat_lt _ hlt
    rwa [hlen] at this
  obtain ⟨m, hm, n, hn, hmn, hval⟩ :=
    @Finset.exists_ne_map_eq_of_card_lt_of_maps_to Nat Nat
      (Finset.range (256 ^ 16 + 1)) (Finset.range (256 ^ 16))
      (by simp)
      (fun k => bytesToNat (md5Digest (utf8Bytes (aStr k))))
      (fun k _ => Finset.mem_range.mpr (hfin k))
  have hdig : md5Digest (utf8Bytes (aStr m)) = md5Digest (utf8Bytes (aStr n)) := by
    obtain ⟨hl1, hb1⟩ := md5Digest_bytes (utf8Bytes (aStr m))
    obtain ⟨hl2, hb2⟩ := md5Digest_bytes (utf8Bytes (aStr n))
    exact bytesToNat_inj _ _ (by rw [hl1, hl2]) hb1 hb2 hval
  refine ⟨[aStr m], [aStr n], ?_, ?_, ?_⟩
  · intro hl
    exact hmn (aStr_inj (by simpa using hl))
  · intro s hs
    simp only [List.mem_append, List.mem_singleton] at hs
    rcases hs with h | h <;> subst h <;>
      simp [aStr, List.mem_replicate]
  · show compute_content_hash (String.intercalate "\n" [aStr m]) = _
    have h1 : String.intercalate "\n" [aStr m] = aStr m := rfl
    have h2 : String.intercalate "\n" [aStr n] = aStr n := rfl
    rw [h1, h2]
    unfold compute_content_hash
    rw [hdig]

/-- Claim C4 (amended): a turn's `content_hash` is the MD5 hex digest of
exactly the turn's `raw_jsonl`, which is the newline-join of precisely the
turn's own source lines; it depends on no derived field — any turn from any
parse with the same raw text gets the same hash.  An edit to the underlying
log lines changes the hash input, and changes the hash itself except in the
mathematically unavoidable event of an MD5 collision (which exists: see the
counterexample). -/
theorem content_hash_is_md5_of_raw_only
    (ls : List Line) (ts : List Turn) (ht : parse_session_into_turns ls = .ok ts) :
    ∀ t ∈ ts,
      t.raw_jsonl = String.intercalate "\n" t.raw_lines ∧
      t.content_hash = compute_content_hash t.raw_jsonl ∧
      (∀ (ls2 : List Line) (ts2 : List Turn),
        parse_session_into_turns ls2 = .ok ts2 →
        ∀ t2 ∈ ts2, t2.raw_jsonl = t.raw_jsonl → t2.content_hash = t.content_hash) := by
  have shape : ∀ (ls0 : List Line) (ts0 : List Turn),
      parse_session_into_turns ls0 = .ok ts0 → ∀ t0 ∈ ts0,
      t0.raw_jsonl = String.intercalate "\n" t0.raw_lines ∧
      t0.content_hash = compute_content_hash t0.raw_jsonl := by
    intro ls0 ts0 ht0 t0 htm0
    have hms : ∃ ms, firstPass ls0 = .ok ms := by
      unfold parse_session_into_turns at ht0
      cases hfp : firstPass ls0 with
      | error e => rw [hfp] at ht0; exact absurd ht0 (by simp [Except.map])
      | ok ms => exact ⟨ms, rfl⟩
    obtain ⟨ms, hms⟩ := hms
    have hts : ts0 = groupTurns ms := by
      unfold parse_session_into_turns at ht0
      rw [hms] at ht0
      exact (Except.ok.inj ht0).symm
    subst hts
    rw [groupTurns_characterization] at htm0
    obtain ⟨g, _, _, j, hj⟩ := mem_turnsFromIdx (groupsOf ms) 0 t0 htm0
    subst hj
    exact ⟨rfl, rfl⟩
  intro t htm
  obtain ⟨h1, h2⟩ := shape ls ts ht t htm
  refine ⟨h1, h2, fun ls2 ts2 ht2 t2 htm2 hraw => ?_⟩
  obtain ⟨_, h4⟩ := shape ls2 ts2 ht2 t2 htm2
  rw [h4, hraw, ← h2]

/-- Witness for the amended C4 at a concrete transcript. -/
theorem content_hash_is_md5_of_raw_only_witness :
    ∃ ts, parse_session_into_turns [wUser1, wAsst1] = .ok ts ∧
      ∀ t ∈ ts,
        t.raw_jsonl = String.intercalate "\n" t.raw_lines ∧
        t.content_hash = compute_content_hash t.raw_jsonl := by
  obtain ⟨ts, ht⟩ : ∃ ts, parse_session_into_turns [wUser1, wAsst1] = .ok ts := ⟨_, rfl⟩
  refine ⟨ts, ht, fun t htm => ?_⟩
  obtain ⟨h1, h2, _⟩ := content_hash_is_md5_of_raw_only [wUser1, wAsst1] ts ht t htm
  exact ⟨h1, h2⟩

/-! ## C2: dedupe-key uniqueness in the job store -/

/-- Updates that keep `dedupe_key` keep per-key counts. -/
theorem countP_key_map (jobs : List Job) (f : Job → Job)
    (hf : ∀ j, (f j).dedupe_key = j.dedupe_key) (key : String) :
    (jobs.map f).countP (fun j => j.dedupe_key == some key)
      = jobs.countP (fun j => j.dedupe_key == some key) := by
  rw [List.countP_map]
  have hfun : ((fun j : Job => j.dedupe_key == some key) ∘ f)
      = fun j : Job => j.dedupe_key == some key := by
    funext j
    simp [Function.comp, hf j]
  rw [hfun]

/-- At most one row (of any status) per dedupe key. -/
def KeyUnique (st : JobStore) : Prop :=
  ∀ key : String, (st.jobs.countP fun j => j.dedupe_key == some key) ≤ 1

/-- Every operation preserves per-key row uniqueness. -/
theorem applyOp_keyUnique (st : JobStore) (op : JobOp) (h : KeyUnique st) :
    KeyUnique (applyOp st op) := by
  cases op with
  | enqueue kind payload priority max_attempts dedupe_key now =>
    intro key
    cases dedupe_key with
    | none =>
      have hk := h key
      simp only [applyOp, enqueue_job, Bool.false_eq_true, if_false]
      rw [List.countP_append]
      simpa using hk
    | some key2 =>
      by_cases hc : (st.jobs.any fun j => j.dedupe_key == some key2) = true
      · simpa [applyOp, enqueue_job, hc] using h key
      · simp only [applyOp, enqueue_job, hc, Bool.false_eq_true, if_false]
        rw [List.countP_append]
        by_cases hk : key = key2
        · subst hk
          have h0 : (st.jobs.countP fun j => j.dedupe_key == some key) = 0 := by
            rw [List.countP_eq_zero]
            intro j hj hjk
            exact hc (List.any_eq_true.mpr ⟨j, hj, hjk⟩)
          have h1 : (List.countP (fun j : Job => j.dedupe_key == some key)
              [{ id := st.nextId, kind := kind, dedupe_key := some key,
                 payload := payload, status := .queued, priority := priority,
                 attempts := 0, max_attempts := max_attempts, locked_until := none,
                 error_message := none, created_at := now }]) ≤ 1 := by
            simp [List.countP_cons]
          omega
        · have h1 : (List.countP (fun j : Job => j.dedupe_key == some key)
              [{ id := st.nextId, kind := kind, dedupe_key := some key2,
                 payload := payload, status := .queued, priority := priority,
                 attempts := 0, max_attempts := max_attempts, locked_until := none,
                 error_message := none, created_at := now }]) = 0 := by
            simp [List.countP_cons]
            intro hcontra
            exact hk hcontra.symm
          have := h key
          omega
  | claim kinds now =>
    intro key
    simp only [applyOp, claim_job]
    cases hpick : pickBest (st.jobs.filter fun j =>
        decide (j.status = .queued ∨ j.status = .retry) && kindOk kinds j.kind) with
    | none => exact h key
    | some b =>
      simp only
      rw [countP_key_map]
      · exact h key
      · intro j
        by_cases hj : (j.id == b.id) = true <;> simp [hj]
  | complete id =>
    intro key
    simp only [applyOp, complete_job]
    rw [countP_key_map]
    · exact h key
    · intro j
      by_cases hj : (j.id == id) = true <;> simp [hj]
  | fail id msg =>
    intro key
    simp only [applyOp, fail_job]
    cases hf : st.jobs.find? (fun j => j.id == id) with
    | none => exact h key
    | some j0 =>
      simp only
      rw [countP_key_map]
      · exact h key
      · intro j
        by_cases hj : (j.id == id) = true <;> simp [hj]
  | expire now =>
    intro key
    simp only [applyOp, expire_stale_leases]
    rw [countP_key_map]
    · exact h key
    · intro j
      by_cases hj : (decide (j.status = JobStatus.processing) &&
          match j.locked_until with | some t => t < now | none => false) = true <;>
        simp [hj]

/-- Any sequence of operations preserves per-key row uniqueness. -/
theorem applyOps_keyUnique (ops : List JobOp) :
    ∀ st, KeyUnique st → KeyUnique (applyOps st ops) := by
  induction ops with
  | nil => intro st h; exact h
  | cons op ops ih =>
    intro st h
    exact ih (applyOp st op) (applyOp_keyUnique st op h)

/-- Claim C2: at most one non-terminal (queued/processing/retry) job per
dedupe key ever exists, and an enqueue whose key already has a non-terminal
job inserts no row and returns nothing.  (The schema is even stronger: the
`dedupe_key` column is table-wide unique, so the count bound holds across
all statuses; concurrent enqueues serialize through the unique-constraint
insert, modelled here as sequential operations.) -/
theorem dedupe_key_at_most_one_nonterminal :
    (∀ st, ReachableStore st → ∀ key : String,
      (st.jobs.countP fun j =>
        (j.dedupe_key == some key) && nonTerminal j.status) ≤ 1) ∧
    (∀ (st : JobStore) (key kind payload : String) (priority max_attempts now : Nat),
      (∃ j ∈ st.jobs, j.dedupe_key = some key ∧ nonTerminal j.status = true) →
      enqueue_job st kind payload priority max_attempts (some key) now = (none, st)) := by
  constructor
  · intro st hre key
    obtain ⟨ops, hops⟩ := hre
    have hku : KeyUnique st := by
      rw [← hops]
      exact applyOps_keyUnique ops emptyStore (fun k => by simp [emptyStore])
    calc (st.jobs.countP fun j => (j.dedupe_key == some key) && nonTerminal j.status)
        ≤ st.jobs.countP fun j => j.dedupe_key == some key := by
          refine List.countP_mono_left fun j _ hj => ?_
          exact (Bool.and_elim_left hj)
    _ ≤ 1 := hku key
  · intro st key kind payload priority max_attempts now hex
    obtain ⟨j, hj, hjk, _⟩ := hex
    have hc : (st.jobs.any fun j => j.dedupe_key == some key) = true :=
      List.any_eq_true.mpr ⟨j, hj, by simp [hjk]⟩
    simp [enqueue_job, hc]

/-- Witness for C2: a two-enqueue scenario with the same key. -/
theorem dedupe_key_at_most_one_nonterminal_witness :
    ((applyOps emptyStore [JobOp.enqueue "x" "p" 10 10 (some "k1") 0]).jobs.countP
        (fun j => (j.dedupe_key == some "k1") && nonTerminal j.status)) ≤ 1 ∧
    enqueue_job (applyOps emptyStore [JobOp.enqueue "x" "p" 10 10 (some "k1") 0])
        "x" "p2" 10 10 (some "k1") 1 =
      (none, applyOps emptyStore [JobOp.enqueue "x" "p" 10 10 (some "k1") 0]) := by
  have h := dedupe_key_at_most_one_nonterminal
  refine ⟨h.1 _ ⟨[JobOp.enqueue "x" "p" 10 10 (some "k1") 0], rfl⟩ "k1", ?_⟩
  refine h.2 _ "k1" "x" "p2" 10 10 1 ?_
  refine ⟨{ id := 0, kind := "x", dedupe_key := some "k1", payload := "p",
            status := .queued, priority := 10, attempts := 0, max_attempts := 10,
            locked_until := none, error_message := none, created_at := 0 }, ?_, rfl, rfl⟩
  decide

/-! ## C9: fail transitions and terminality of `failed` -/

/-- Lifecycle invariants: ids are below the allocator and duplicate-free,
and a failed job has exhausted its attempts. -/
def GoodStore (st : JobStore) : Prop :=
  (∀ j ∈ st.jobs, j.id < st.nextId) ∧
  (st.jobs.map Job.id).Nodup ∧
  (∀ j ∈ st.jobs, j.status = .failed → j.max_attempts ≤ j.attempts)

/-- Id-preserving updates keep the id list. -/
theorem map_id_of_preserves (jobs : List Job) (f : Job → Job)
    (hf : ∀ j, (f j).id = j.id) : (jobs.map f).map Job.id = jobs.map Job.id := by
  rw [List.map_map]
  exact List.map_congr_left fun j _ => hf j

/-- The best candidate is one of the candidates. -/
theorem pickBest_mem (cands : List Job) (b : Job) (h : pickBest cands = some b) :
    b ∈ cands := by
  have key : ∀ (l : List Job) (acc : Option Job) (b : Job),
      l.foldl (fun acc j =>
        match acc with
        | none => some j
        | some b =>
          if j.priority < b.priority ∨ (j.priority = b.priority ∧ j.created_at < b.created_at)
          then some j else some b) acc = some b →
      (acc = some b ∨ b ∈ l) := by
    intro l
    induction l with
    | nil => intro acc b h; exact Or.inl h
    | cons j l ih =>
      intro acc b h
      rw [List.foldl_cons] at h
      rcases ih _ b h with h2 | h2
      · cases acc with
        | none =>
          simp only at h2
          exact Or.inr (by simp [Option.some.inj h2])
        | some c =>
          simp only at h2
          by_cases hlt : j.priority < c.priority ∨
              (j.priority = c.priority ∧ j.created_at < c.created_at)
          · rw [if_pos hlt] at h2
            exact Or.inr (by simp [Option.some.inj h2])
          · rw [if_neg hlt] at h2
            exact Or.inl h2
      · exact Or.inr (List.mem_cons_of_mem j h2)
  rcases key cands none b h with h2 | h2
  · exact absurd h2 (by simp)
  · exact h2

/-- Every operation preserves the lifecycle invariants. -/
theorem applyOp_good (st : JobStore) (op : JobOp) (h : GoodStore st) :
    GoodStore (applyOp st op) := by
  obtain ⟨hid, hnd, hfa⟩ := h
  cases op with
  | enqueue kind payload priority max_attempts dedupe_key now =>
    by_cases hc : (match dedupe_key with
      | some key => st.jobs.any fun j => j.dedupe_key == some key
      | none => false) = true
    · have : applyOp st (.enqueue kind payload priority max_attempts dedupe_key now) = st := by
        simp [applyOp, enqueue_job, hc]
      rw [this]
      exact ⟨hid, hnd, hfa⟩
    · have : applyOp st (.enqueue kind payload priority max_attempts dedupe_key now) =
        { jobs := st.jobs ++
            [{ id := st.nextId, kind := kind, dedupe_key := dedupe_key, payload := payload,
               status := .queued, priority := priority, attempts := 0,
               max_attempts := max_attempts, locked_until := none,
               error_message := none, created_at := now }],
          nextId := st.nextId + 1 } := by
        simp [applyOp, enqueue_job, hc]
      rw [this]
      refine ⟨?_, ?_, ?_⟩
      · intro j hj
        rcases List.mem_append.mp hj with h2 | h2
        · exact Nat.lt_succ_of_lt (hid j h2)
        · simp only [List.mem_singleton] at h2
          subst h2
          exact Nat.lt_succ_self _
      · rw [List.map_append]
        rw [List.nodup_append]
        refine ⟨hnd, by simp, ?_⟩
        intro x hx
        simp only [List.map_cons, List.map_nil, List.mem_singleton]
        intro hx2
        subst hx2
        obtain ⟨j, hj, hjid⟩ := List.mem_map.mp hx
        have := hid j hj
        omega
      · intro j hj hjf
        rcases List.mem_append.mp hj with h2 | h2
        · exact hfa j h2 hjf
        · simp only [List.mem_singleton] at h2
          subst h2
          simp at hjf
  | claim kinds now =>
    simp only [applyOp, claim_job]
    cases hpick : pickBest (st.jobs.filter fun j =>
        decide (j.status = .queued ∨ j.status = .retry) && kindOk kinds j.kind) with
    | none => exact ⟨hid, hnd, hfa⟩
    | some b =>
      simp only
      refine ⟨?_, ?_, ?_⟩
      · intro j hj
        obtain ⟨j0, hj0, hj0e⟩ := List.mem_map.mp hj
        subst hj0e
        by_cases hb : (j0.id == b.id) = true <;> simp only [hb, if_true,
          Bool.false_eq_true, if_false] <;> [skip; exact hid j0 hj0]
        · have : j0.id < st.nextId := hid j0 hj0
          simpa using this
      · rw [map_id_of_preserves]
        · exact hnd
        · intro j
          by_cases hb : (j.id == b.id) = true <;> simp [hb]
      · intro j hj hjf
        obtain ⟨j0, hj0, hj0e⟩ := List.mem_map.mp hj
        subst hj0e
        by_cases hb : (j0.id == b.id) = true
        · simp only [hb, if_true] at hjf
          exact absurd hjf (by simp)
        · simp only [hb, Bool.false_eq_true, if_false] at hjf ⊢
          exact hfa j0 hj0 hjf
  | complete id =>
    simp only [applyOp, complete_job]
    refine ⟨?_, ?_, ?_⟩
    · intro j hj
      obtain ⟨j0, hj0, hj0e⟩ := List.mem_map.mp hj
      subst hj0e
      by_cases hb : (j0.id == id) = true <;> simp only [hb, if_true,
        Bool.false_eq_true, if_false] <;> [skip; exact hid j0 hj0]
      · have : j0.id < st.nextId := hid j0 hj0
        simpa using this
    · rw [map_id_of_preserves]
      · exact hnd
      · intro j
        by_cases hb : (j.id == id) = true <;> simp [hb]
    · intro j hj hjf
      obtain ⟨j0, hj0, hj0e⟩ := List.mem_map.mp hj
      subst hj0e
      by_cases hb : (j0.id == id) = true
      · simp only [hb, if_true] at hjf
        exact absurd hjf (by simp)
      · simp only [hb, Bool.false_eq_true, if_false] at hjf ⊢
        exact hfa j0 hj0 hjf
  | fail id msg =>
    simp only [applyOp, fail_job]
    cases hfind : st.jobs.find? (fun j => j.id == id) with
    | none => exact ⟨hid, hnd, hfa⟩
    | some j0 =>
      simp only
      refine ⟨?_, ?_, ?_⟩
      · intro j hj
        obtain ⟨j1, hj1, hj1e⟩ := List.mem_map.mp hj
        subst hj1e
        by_cases hb : (j1.id == id) = true <;> simp only [hb, if_true,
          Bool.false_eq_true, if_false] <;> [skip; exact hid j1 hj1]
        · have : j1.id < st.nextId := hid j1 hj1
          simpa using this
      · rw [map_id_of_preserves]
        · exact hnd
        · intro j
          by_cases hb : (j.id == id) = true <;> simp [hb]
      · intro j hj hjf
        obtain ⟨j1, hj1, hj1e⟩ := List.mem_map.mp hj
        subst hj1e
        by_cases hb : (j1.id == id) = true
        · simp only [hb, if_true] at hjf ⊢
          by_cases hatt : j0.attempts < j0.max_attempts
          · rw [if_pos hatt] at hjf
            exact absurd hjf (by simp)
          · have hj0mem : j0 ∈ st.jobs := List.mem_of_find?_eq_some hfind
            have hj0id : ((fun j : Job => j.id == id) j0) = true :=
              @List.find?_some Job (fun j : Job => j.id == id) j0 st.jobs hfind
            have : j1 = j0 := by
              refine List.inj_on_of_nodup_map hnd hj1 hj0mem ?_
              have h1 : j1.id = id := by simpa using hb
              have h2 : j0.id = id := by simpa using hj0id
              rw [h1, h2]
            subst this
            simpa using Nat.le_of_not_lt hatt
        · simp only [hb, Bool.false_eq_true, if_false] at hjf ⊢
          exact hfa j1 hj1 hjf
  | expire now =>
    simp only [applyOp, expire_stale_leases]
    refine ⟨?_, ?_, ?_⟩
    · intro j hj
      obtain ⟨j0, hj0, hj0e⟩ := List.mem_map.mp hj
      subst hj0e
      by_cases hb : (decide (j0.status = JobStatus.processing) &&
          match j0.locked_until with | some t => t < now | none => false) = true <;>
        simp only [hb, if_true, Bool.false_eq_true, if_false] <;> [skip; exact hid j0 hj0]
      · have : j0.id < st.nextId := hid j0 hj0
        simpa using this
    · rw [map_id_of_preserves]
      · exact hnd
      · intro j
        by_cases hb : (decide (j.status = JobStatus.processing) &&
            match j.locked_until with | some t => t < now | none => false) = true <;>
          simp [hb]
    · intro j hj hjf
      obtain ⟨j0, hj0, hj0e⟩ := List.mem_map.mp hj
      subst hj0e
      by_cases hb : (decide (j0.status = JobStatus.processing) &&
          match j0.locked_until with | some t => t < now | none => false) = true
      · simp only [hb, if_true] at hjf
        exact absurd hjf (by simp)
      · simp only [hb, Bool.false_eq_true, if_false] at hjf ⊢
        exact hfa j0 hj0 hjf

/-- Reachable stores satisfy the lifecycle invariants. -/
theorem reachable_good (st : JobStore) (h : ReachableStore st) : GoodStore st := by
  obtain ⟨ops, hops⟩ := h
  rw [← hops]
  have key : ∀ (ops : List JobOp) (st0 : JobStore), GoodStore st0 →
      GoodStore (applyOps st0 ops) := by
    intro ops
    induction ops with
    | nil => intro st0 h0; exact h0
    | cons op ops ih => intro st0 h0; exact ih (applyOp st0 op) (applyOp_good st0 op h0)
  refine key ops emptyStore ⟨?_, ?_, ?_⟩ <;> simp [emptyStore]


/-- The tracked id has left the non-terminal world: the id is allocated, and
every row carrying it is failed or done with its attempts exhausted. -/
def FailedAt (st : JobStore) (i : Nat) : Prop :=
  i < st.nextId ∧ ∀ j ∈ st.jobs, j.id = i →
    (j.status = JobStatus.failed ∨ j.status = JobStatus.done) ∧
    j.max_attempts ≤ j.attempts

/-- No single operation can resurrect a terminal id. -/
theorem applyOp_failedAt (st : JobStore) (op : JobOp) (i : Nat)
    (hg : GoodStore st) (h : FailedAt st i) : FailedAt (applyOp st op) i := by
  obtain ⟨hid, hnd, hfa⟩ := hg
  obtain ⟨hlt, hstab⟩ := h
  cases op with
  | enqueue kind payload priority max_attempts dedupe_key now =>
    by_cases hc : (match dedupe_key with
      | some key => st.jobs.any fun j => j.dedupe_key == some key
      | none => false) = true
    · have heq : applyOp st (.enqueue kind payload priority max_attempts dedupe_key now) = st := by
        simp [applyOp, enqueue_job, hc]
      rw [heq]
      exact ⟨hlt, hstab⟩
    · have heq : applyOp st (.enqueue kind payload priority max_attempts dedupe_key now) =
        { jobs := st.jobs ++
            [{ id := st.nextId, kind := kind, dedupe_key := dedupe_key, payload := payload,
               status := .queued, priority := priority, attempts := 0,
               max_attempts := max_attempts, locked_until := none,
               error_message := none, created_at := now }],
          nextId := st.nextId + 1 } := by
        simp [applyOp, enqueue_job, hc]
      rw [heq]
      refine ⟨Nat.lt_succ_of_lt hlt, ?_⟩
      intro j hj hjid
      rcases List.mem_append.mp hj with h2 | h2
      · exact hstab j h2 hjid
      · exfalso
        simp only [List.mem_singleton] at h2
        subst h2
        simp only at hjid
        omega
  | claim kinds now =>
    simp only [applyOp, claim_job]
    cases hpick : pickBest (st.jobs.filter fun j =>
        decide (j.status = .queued ∨ j.status = .retry) && kindOk kinds j.kind) with
    | none => exact ⟨hlt, hstab⟩
    | some b =>
      simp only
      refine ⟨hlt, ?_⟩
      intro j hj hjid
      obtain ⟨j0, hj0, hj0e⟩ := List.mem_map.mp hj
      subst hj0e
      have hbid : b.id ≠ i := by
        intro hbe
        have hbmem := pickBest_mem _ b hpick
        have hbst : b ∈ st.jobs := List.mem_of_mem_filter hbmem
        have hbq := List.of_mem_filter hbmem
        obtain ⟨hterm, _⟩ := hstab b hbst hbe
        have hq : b.status = JobStatus.queued ∨ b.status = JobStatus.retry := by
          simp only [Bool.and_eq_true, decide_eq_true_eq] at hbq
          exact hbq.1
        rcases hterm with ht | ht <;> rw [ht] at hq <;>
          rcases hq with hq | hq <;> exact absurd hq (by decide)
      by_cases hb : (j0.id == b.id) = true
      · exfalso
        simp only [hb, if_true] at hjid
        have h1 : j0.id = b.id := by simpa using hb
        have h2 : j0.id = i := by simpa using hjid
        exact hbid (h1 ▸ h2)
      · simp only [hb, Bool.false_eq_true, if_false] at hjid ⊢
        exact hstab j0 hj0 hjid
  | complete cid =>
    simp only [applyOp, complete_job]
    refine ⟨hlt, ?_⟩
    intro j hj hjid
    obtain ⟨j0, hj0, hj0e⟩ := List.mem_map.mp hj
    subst hj0e
    by_cases hb : (j0.id == cid) = true
    · rw [if_pos hb] at hjid ⊢
      have h2 : j0.id = i := by simpa using hjid
      exact ⟨Or.inr rfl, (hstab j0 hj0 h2).2⟩
    · rw [if_neg hb] at hjid ⊢
      exact hstab j0 hj0 hjid
  | fail fid msg =>
    simp only [applyOp, fail_job]
    cases hfind : st.jobs.find? (fun j => j.id == fid) with
    | none => exact ⟨hlt, hstab⟩
    | some j0 =>
      simp only
      refine ⟨hlt, ?_⟩
      intro j hj hjid
      obtain ⟨j1, hj1, hj1e⟩ := List.mem_map.mp hj
      subst hj1e
      by_cases hb : (j1.id == fid) = true
      · simp only [hb, if_true] at hjid ⊢
        have h1 : j1.id = fid := by simpa using hb
        have h2 : j1.id = i := by simpa using hjid
        have hfi : fid = i := by rw [← h1, h2]
        have hj0mem : j0 ∈ st.jobs := List.mem_of_find?_eq_some hfind
        have hj0id : j0.id = fid := by
          have h3 := @List.find?_some Job (fun j : Job => j.id == fid) j0 st.jobs hfind
          simpa using h3
        obtain ⟨_, hj0att⟩ := hstab j0 hj0mem (by rw [hj0id, hfi])
        have hns : ¬ j0.attempts < j0.max_attempts := by omega
        rw [if_neg hns]
        refine ⟨Or.inl rfl, ?_⟩
        exact (hstab j1 hj1 h2).2
      · simp only [hb, Bool.false_eq_true, if_false] at hjid ⊢
        exact hstab j1 hj1 hjid
  | expire now =>
    simp only [applyOp, expire_stale_leases]
    refine ⟨hlt, ?_⟩
    intro j hj hjid
    obtain ⟨j0, hj0, hj0e⟩ := List.mem_map.mp hj
    subst hj0e
    by_cases hb : (decide (j0.status = JobStatus.processing) &&
        match j0.locked_until with | some t => t < now | none => false) = true
    · exfalso
      simp only [hb, if_true] at hjid
      have h2 : j0.id = i := by simpa using hjid
      obtain ⟨hterm, _⟩ := hstab j0 hj0 h2
      have hproc : j0.status = JobStatus.processing := by
        simp only [Bool.and_eq_true, decide_eq_true_eq] at hb
        exact hb.1
      rcases hterm with ht | ht <;> rw [ht] at hproc <;> exact absurd hproc (by decide)
    · simp only [hb, Bool.false_eq_true, if_false] at hjid ⊢
      exact hstab j0 hj0 hjid

/-- No operation sequence can resurrect a terminal id. -/
theorem applyOps_failedAt (st : JobStore) (ops : List JobOp) (i : Nat)
    (hg : GoodStore st) (h : FailedAt st i) : FailedAt (applyOps st ops) i := by
  induction ops generalizing st with
  | nil => exact h
  | cons op ops ih =>
    exact ih (applyOp st op) (applyOp_good st op hg) (applyOp_failedAt st op i hg h)

/-- `find?` by id commutes with an id-preserving row update. -/
theorem find?_map_of_id_pres (l : List Job) (f : Job → Job)
    (hf : ∀ x, (f x).id = x.id) (i : Nat) :
    (l.map f).find? (fun x => x.id == i) = (l.find? (fun x => x.id == i)).map f := by
  induction l with
  | nil => rfl
  | cons x l ih =>
    simp only [List.map_cons]
    by_cases hx : (x.id == i) = true
    · rw [@List.find?_cons_of_pos Job (fun y : Job => y.id == i) (f x) (l.map f)
          (by show ((f x).id == i) = true; rw [hf x]; exact hx),
        @List.find?_cons_of_pos Job (fun y : Job => y.id == i) x l hx]
      rfl
    · rw [@List.find?_cons_of_neg Job (fun y : Job => y.id == i) (f x) (l.map f)
          (by show ¬ ((f x).id == i) = true; rw [hf x]; exact hx),
        @List.find?_cons_of_neg Job (fun y : Job => y.id == i) x l hx, ih]

/-- `fail_job` on a present id rewrites exactly that row: retry below the
attempt budget, failed at or past it, and the error message is recorded. -/
theorem fail_job_getJob (st : JobStore) (i : Nat) (msg : String) (j : Job)
    (hget : getJob st i = some j) :
    getJob (fail_job st i msg) i =
      some { j with
        status := if j.attempts < j.max_attempts then JobStatus.retry
                  else JobStatus.failed,
        error_message := some msg } := by
  have hfind : st.jobs.find? (fun x => x.id == i) = some j := hget
  have hjid : (j.id == i) = true := by
    have h3 := @List.find?_some Job (fun x : Job => x.id == i) j st.jobs hfind
    simpa using h3
  simp only [fail_job, hfind]
  simp only [getJob]
  rw [find?_map_of_id_pres]
  · rw [hfind]
    simp only [Option.map_some']
    rw [if_pos hjid]
  · intro x
    by_cases hx : (x.id == i) = true <;> simp [hx]

/-- C9: Modelled from the spec: `fail` on a job with `attempts < max_attempts`
sets status retry and records the error; with `attempts = max_attempts` it
sets status failed; and failed is terminal — in any reachable store holding a
failed row, no operation sequence ever yields a row with that id whose status
is retry again. -/
theorem fail_sets_retry_or_failed_and_failed_is_terminal
    (st : JobStore) (i : Nat) (msg : String) (j : Job)
    (hre : ReachableStore st) (hget : getJob st i = some j) :
    (j.attempts < j.max_attempts →
      getJob (fail_job st i msg) i =
        some { j with status := JobStatus.retry, error_message := some msg }) ∧
    (j.attempts = j.max_attempts →
      getJob (fail_job st i msg) i =
        some { j with status := JobStatus.failed, error_message := some msg }) ∧
    (j.status = JobStatus.failed →
      ∀ ops j2, getJob (applyOps st ops) i = some j2 →
        j2.status ≠ JobStatus.retry) := by
  have hg : GoodStore st := reachable_good st hre
  refine ⟨?_, ?_, ?_⟩
  · intro hatt
    have h1 := fail_job_getJob st i msg j hget
    rw [if_pos hatt] at h1
    exact h1
  · intro hatt
    have h1 := fail_job_getJob st i msg j hget
    rw [if_neg (by omega)] at h1
    exact h1
  · intro hjf ops j2 hget2
    obtain ⟨hid, hnd, hfa⟩ := hg
    have hfind : st.jobs.find? (fun x => x.id == i) = some j := hget
    have hmem : j ∈ st.jobs := List.mem_of_find?_eq_some hfind
    have hjid : j.id = i := by
      have h3 := @List.find?_some Job (fun x : Job => x.id == i) j st.jobs hfind
      simpa using h3
    have hFA : FailedAt st i := by
      refine ⟨by rw [← hjid]; exact hid j hmem, ?_⟩
      intro j1 hj1 hj1i
      have hj1e : j1 = j := by
        refine List.inj_on_of_nodup_map hnd hj1 hmem ?_
        rw [hj1i, hjid]
      subst hj1e
      exact ⟨Or.inl hjf, hfa j1 hj1 hjf⟩
    obtain ⟨_, hstab⟩ := applyOps_failedAt st ops i ⟨hid, hnd, hfa⟩ hFA
    have hfind2 : (applyOps st ops).jobs.find? (fun x => x.id == i) = some j2 := hget2
    have hmem2 : j2 ∈ (applyOps st ops).jobs := List.mem_of_find?_eq_some hfind2
    have hj2i : j2.id = i := by
      have h3 := @List.find?_some Job (fun x : Job => x.id == i) j2
        (applyOps st ops).jobs hfind2
      simpa using h3
    obtain ⟨hterm, _⟩ := hstab j2 hmem2 hj2i
    rcases hterm with ht | ht <;> rw [ht] <;> decide

/-- Witness: in the store reached by one enqueue (a job with 0 of 10 attempts
used), failing that job sets status retry and records the error message. -/
theorem fail_sets_retry_or_failed_and_failed_is_terminal_witness :
    getJob (fail_job (applyOps emptyStore [JobOp.enqueue "k" "p" 10 10 none 0]) 0 "boom") 0 =
      some { id := 0, kind := "k", dedupe_key := none, payload := "p",
             status := JobStatus.retry, priority := 10, attempts := 0,
             max_attempts := 10, locked_until := none,
             error_message := some "boom", created_at := 0 } :=
  (fail_sets_retry_or_failed_and_failed_is_terminal
      (applyOps emptyStore [JobOp.enqueue "k" "p" 10 10 none 0]) 0 "boom"
      { id := 0, kind := "k", dedupe_key := none, payload := "p",
        status := JobStatus.queued, priority := 10, attempts := 0,
        max_attempts := 10, locked_until := none,
        error_message := none, created_at := 0 }
      ⟨[JobOp.enqueue "k" "p" 10 10 none 0], rfl⟩ rfl).1 (by decide)

/-! ## C8: recorder idempotence -/

/-- Fold step: when every parsed hash is already persisted, every turn is
skipped and nothing is recorded or persisted. -/
theorem recStep_fold_all_known (ts : List Turn) :
    ∀ (r s : Nat) (p : List Turn),
    (∀ t ∈ ts, t.content_hash ∈ p.map Turn.content_hash) →
    ts.foldl recStep (r, s, p) = (r, s + ts.length, p) := by
  induction ts with
  | nil => intro r s p _; simp
  | cons t ts ih =>
    intro r s p h
    rw [List.foldl_cons]
    have ht : ((p.map Turn.content_hash).contains t.content_hash) = true :=
      List.elem_iff.mpr (h t (List.mem_cons_self t ts))
    simp only [recStep, ht, if_true]
    rw [ih r (s + 1) p (fun t2 ht2 => h t2 (List.mem_cons_of_mem t ht2))]
    rw [List.length_cons]
    have heq : s + 1 + ts.length = s + (ts.length + 1) := by omega
    rw [heq]

/-- Fold step: when the parsed hashes are distinct and all fresh, every turn
is recorded and appended in order. -/
theorem recStep_fold_all_new (ts : List Turn) :
    ∀ (r s : Nat) (p : List Turn),
    (ts.map Turn.content_hash).Nodup →
    (∀ t ∈ ts, t.content_hash ∉ p.map Turn.content_hash) →
    ts.foldl recStep (r, s, p) = (r + ts.length, s, p ++ ts) := by
  induction ts with
  | nil => intro r s p _ _; simp
  | cons t ts ih =>
    intro r s p hnd hnew
    rw [List.foldl_cons]
    have ht : ((p.map Turn.content_hash).contains t.content_hash) = false := by
      cases hc : ((p.map Turn.content_hash).contains t.content_hash) with
      | false => rfl
      | true => exact absurd (List.elem_iff.mp hc) (hnew t (List.mem_cons_self t ts))
    simp only [recStep, ht, Bool.false_eq_true, if_false]
    rw [List.map_cons, List.nodup_cons] at hnd
    have hnew2 : ∀ t2 ∈ ts, t2.content_hash ∉ (p ++ [t]).map Turn.content_hash := by
      intro t2 ht2 hmem
      rw [List.map_append] at hmem
      rcases List.mem_append.mp hmem with hm | hm
      · exact hnew t2 (List.mem_cons_of_mem t ht2) hm
      · simp only [List.map_cons, List.map_nil, List.mem_singleton] at hm
        exact hnd.1 (hm ▸ List.mem_map_of_mem Turn.content_hash ht2)
    rw [ih (r + 1) s (p ++ [t]) hnd.2 hnew2]
    rw [List.length_cons]
    have h1 : r + 1 + ts.length = r + (ts.length + 1) := by omega
    rw [h1, List.append_assoc, List.singleton_append]

/-- After any `record` call, every parsed turn's hash is among the persisted
hashes: the fold only appends to the persisted list, and each turn is either
found there or added to it. -/
theorem recStep_fold_persist_superset (ts : List Turn) :
    ∀ (r s : Nat) (p : List Turn),
    (∃ q, (ts.foldl recStep (r, s, p)).2.2 = p ++ q) ∧
    (∀ t ∈ ts, t.content_hash ∈ ((ts.foldl recStep (r, s, p)).2.2).map Turn.content_hash) := by
  induction ts with
  | nil =>
    intro r s p
    exact ⟨⟨[], by simp⟩, by intro t ht; exact absurd ht (List.not_mem_nil t)⟩
  | cons t ts ih =>
    intro r s p
    rw [List.foldl_cons]
    by_cases hc : ((p.map Turn.content_hash).contains t.content_hash) = true
    · simp only [recStep, hc, if_true]
      obtain ⟨⟨q, hq⟩, hmem⟩ := ih r (s + 1) p
      refine ⟨⟨q, hq⟩, ?_⟩
      intro t2 ht2
      rcases List.mem_cons.mp ht2 with he | hm
      · subst he
        rw [hq, List.map_append]
        exact List.mem_append_left _ (List.elem_iff.mp hc)
      · exact hmem t2 hm
    · have hcf : ((p.map Turn.content_hash).contains t.content_hash) = false := by
        cases hx : ((p.map Turn.content_hash).contains t.content_hash) with
        | false => rfl
        | true => exact absurd hx hc
      simp only [recStep, hcf, Bool.false_eq_true, if_false]
      obtain ⟨⟨q, hq⟩, hmem⟩ := ih (r + 1) s (p ++ [t])
      refine ⟨⟨[t] ++ q, by rw [hq, List.append_assoc]⟩, ?_⟩
      intro t2 ht2
      rcases List.mem_cons.mp ht2 with he | hm
      · subst he
        rw [hq, List.map_append, List.map_append]
        exact List.mem_append_left _ (List.mem_append_right _ (by simp))
      · exact hmem t2 hm

/-- C8: Modelled from the spec: a second `record` call on the unchanged file
records nothing, whatever the transcript — no distinctness assumption: after
any call every parsed hash is already persisted, so every turn is skipped
(first conjunct).  And when the parsed turns are pairwise distinct in content
and the appended turn is genuinely new, a call after exactly one appended
turn records exactly it, skipping `N` = the number of previously persisted
turns (second conjunct). -/
theorem record_second_call_zero_and_append_one :
    (∀ (F : List Line) (res1 : RecResult) (p0 p1 : List Turn),
      record_session (some F) p0 = .ok (res1, p1) →
      ∃ ts, parse_session_into_turns F = .ok ts ∧
        record_session (some F) p1 =
          .ok ({ turns_recorded := 0, turns_skipped := ts.length, error := none }, p1)) ∧
    (∀ (F F2 : List Line) (ts : List Turn) (t : Turn) (res1 : RecResult) (p1 : List Turn),
      parse_session_into_turns F = .ok ts →
      parse_session_into_turns F2 = .ok (ts ++ [t]) →
      (ts.map Turn.content_hash).Nodup →
      t.content_hash ∉ ts.map Turn.content_hash →
      record_session (some F) [] = .ok (res1, p1) →
      p1 = ts ∧ res1.turns_recorded = ts.length ∧
      record_session (some F) p1 =
        .ok ({ turns_recorded := 0, turns_skipped := p1.length, error := none }, p1) ∧
      record_session (some F2) p1 =
        .ok ({ turns_recorded := 1, turns_skipped := p1.length, error := none },
             p1 ++ [t])) := by
  constructor
  · intro F res1 p0 p1 h1
    cases hp : parse_session_into_turns F with
    | error e =>
      simp only [record_session, hp, Except.map] at h1
      exact Except.noConfusion h1
    | ok ts =>
      refine ⟨ts, rfl, ?_⟩
      simp only [record_session, hp, Except.map] at h1 ⊢
      rw [Except.ok.injEq, Prod.mk.injEq] at h1
      obtain ⟨hres, hpe⟩ := h1
      obtain ⟨⟨q, hq⟩, hmem⟩ := recStep_fold_persist_superset ts 0 0 p0
      have hknown : ∀ t2 ∈ ts, t2.content_hash ∈ p1.map Turn.content_hash := by
        intro t2 ht2
        rw [← hpe]
        exact hmem t2 ht2
      rw [recStep_fold_all_known ts 0 0 p1 hknown, Nat.zero_add]
  · intro F F2 ts t res1 p1 hp hp2 hnd hnew h1
    have hfold1 : ts.foldl recStep (0, 0, ([] : List Turn)) = (ts.length, 0, ts) := by
      have h2 := recStep_fold_all_new ts 0 0 [] hnd (by intro t2 _ hm; simp at hm)
      simpa using h2
    have hknown : ∀ t2 ∈ ts, t2.content_hash ∈ ts.map Turn.content_hash :=
      fun t2 ht2 => List.mem_map_of_mem Turn.content_hash ht2
    have hfold2 : ts.foldl recStep (0, 0, ts) = (0, 0 + ts.length, ts) :=
      recStep_fold_all_known ts 0 0 ts hknown
    simp only [record_session, hp, hp2, Except.map, hfold1] at h1 ⊢
    rw [Except.ok.injEq, Prod.mk.injEq] at h1
    obtain ⟨hres, hpe⟩ := h1
    subst hpe
    refine ⟨rfl, by rw [← hres], ?_, ?_⟩
    · rw [hfold2, Nat.zero_add]
    · rw [List.foldl_append, hfold2]
      have ht : ((ts.map Turn.content_hash).contains t.content_hash) = false := by
        cases hc : ((ts.map Turn.content_hash).contains t.content_hash) with
        | false => rfl
        | true => exact absurd (List.elem_iff.mp hc) hnew
      simp only [List.foldl_cons, List.foldl_nil, recStep, ht, Bool.false_eq_true, if_false]
      rw [Nat.zero_add, Nat.zero_add]

/-- Concrete transcript line: a second, distinct user entry. -/
def wUser2 : Line :=
  { raw := "\x7b\"type\": \"user\", \"message\": \x7b\"role\": \"user\", \"content\": \"Deploy it\"\x7d, \"timestamp\": \"2026-02-10T12:01:00Z\", \"sessionId\": \"test-session\"\x7d"
    js := some (.obj (JObj.ofList
      [("type", .str "user"),
       ("message", .obj (JObj.ofList
         [("role", .str "user"), ("content", .str "Deploy it")])),
       ("timestamp", .str "2026-02-10T12:01:00Z"),
       ("sessionId", .str "test-session")])) }

/-- The turn parsed from `[wUser1, wAsst1]`, written out field by field. -/
def wRecT1 : Turn :=
  { turn_number := 0
    user_message := "Fix the bug"
    assistant_text := "Done."
    tool_names := [.str "Read"]
    model_name := some (.str "claude-3")
    started_at := .str "2026-02-10T12:00:00Z"
    ended_at := .str "2026-02-10T12:00:30Z"
    raw_lines := [pyStrip wUser1.raw, pyStrip wAsst1.raw]
    raw_jsonl := String.intercalate "\n" [pyStrip wUser1.raw, pyStrip wAsst1.raw]
    content_hash :=
      compute_content_hash (String.intercalate "\n" [pyStrip wUser1.raw, pyStrip wAsst1.raw]) }

/-- The turn parsed from the appended `wUser2` line alone. -/
def wRecT2 : Turn :=
  { turn_number := 1
    user_message := "Deploy it"
    assistant_text := ""
    tool_names := []
    model_name := none
    started_at := .str "2026-02-10T12:01:00Z"
    ended_at := .str "2026-02-10T12:01:00Z"
    raw_lines := [pyStrip wUser2.raw]
    raw_jsonl := String.intercalate "\n" [pyStrip wUser2.raw]
    content_hash := compute_content_hash (String.intercalate "\n" [pyStrip wUser2.raw]) }

/-- Witness for C8: on the two-line exchange, a second `record` call (first
conjunct, applied to a concrete completed first call) records 0 and skips 1;
after appending the `wUser2` turn, a further call records exactly 1 and skips
the 1 previously persisted turn (second conjunct). -/
theorem record_second_call_zero_and_append_one_witness :
    record_session (some [wUser1, wAsst1]) [wRecT1] =
      .ok ({ turns_recorded := 0, turns_skipped := 1, error := none }, [wRecT1]) ∧
    record_session (some [wUser1, wAsst1, wUser2]) [wRecT1] =
      .ok ({ turns_recorded := 1, turns_skipped := 1, error := none },
           [wRecT1, wRecT2]) := by
  have h := record_second_call_zero_and_append_one
  obtain ⟨ts, hts, hsec⟩ := h.1 [wUser1, wAsst1]
    { turns_recorded := 1, turns_skipped := 0, error := none } [] [wRecT1] rfl
  have hts2 : ts = [wRecT1] :=
    Except.ok.inj (hts.symm.trans
      (rfl : parse_session_into_turns [wUser1, wAsst1] = .ok [wRecT1]))
  subst hts2
  refine ⟨hsec, ?_⟩
  exact (h.2 [wUser1, wAsst1] [wUser1, wAsst1, wUser2] [wRecT1] wRecT2
    { turns_recorded := 1, turns_skipped := 0, error := none } [wRecT1]
    rfl rfl (by decide) (by decide) rfl).2.2.2

/-- Counterexample to C8's skipped count: a transcript holding two turns with
byte-identical content persists only one row, so `N` (turns previously
persisted) is 1; yet after appending one new turn, `record` reports
`turns_skipped = 2` — it counts the parsed occurrences of known content, not
the previously persisted rows. -/
theorem record_skipped_counts_parsed_not_persisted :
    record_session (some [wUser1, wAsst1, wUser1, wAsst1]) [] =
      .ok ({ turns_recorded := 1, turns_skipped := 1, error := none }, [wRecT1]) ∧
    record_session (some [wUser1, wAsst1, wUser1, wAsst1, wUser2]) [wRecT1] =
      .ok ({ turns_recorded := 1, turns_skipped := 2, error := none },
           [wRecT1, { wRecT2 with turn_number := 2 }]) :=
  ⟨rfl, rfl⟩
end Focus
